import Mathlib

/-!
Verification development for the bct/bcts front-end core: source segmenter,
chunker, tokenizer, bracer and bracer-tree iterator.

The definitions below are a shallow embedding of the Rust sources:
  crates/bct/src/source_map.rs   (segmenter)
  crates/bct/src/chunk.rs        (Chunk::ranges)
  crates/bct/src/chunks.rs       (chunker)
  crates/bct/src/lexer.rs        (tokenizer)
  crates/bcts/src/bracer.rs      (bracer and BracerIter)

Machine integers are modelled as Nat (no arithmetic in the sources can
overflow usize on the inputs considered; the sources use checked arithmetic
and panic on overflow, and Nat subtraction sites that can underflow are
modelled explicitly).  Panics (assert!, unreachable!, bug!, .X() unwraps,
out-of-bounds slicing) are modelled as an explicit error outcome of the
embedded function.  Text is modelled as `List Char` with byte positions
computed through UTF-8 character widths, mirroring Rust `str` (which is
always valid UTF-8) indexed by byte offsets.
-/

namespace Bcts

/-- Outcome of running an embedded function that can panic, or that is run
with fuel standing in for a loop whose termination is proved separately. -/
inductive Res (α : Type) where
  | ok (a : α)
  | panicked
  | nofuel
deriving DecidableEq, Repr

/-- Map over the `ok` payload of a `Res`. -/
def Res.map {α β : Type} (f : α → β) : Res α → Res β
  | .ok a => .ok (f a)
  | .panicked => .panicked
  | .nofuel => .nofuel

/-- Sequence two possibly-failing computations. -/
def Res.bind {α β : Type} : Res α → (α → Res β) → Res β
  | .ok a, f => f a
  | .panicked, _ => .panicked
  | .nofuel, _ => .nofuel

/-- `lexer.rs` `Sigil`.  The bct crate declares the first eight variants;
the bcts crate's lexer (whose source is not in this tree, but whose
variants are used by `bcts/src/bracer.rs`) also has the four bracket/angle
variants, per the spec's bit-exact sigil table. -/
inductive Sigil where
  | dot | comma | semicolon | colonDash
  | parenOpen | parenClose | braceOpen | braceClose
  | bracketOpen | bracketClose | angleOpen | angleClose
deriving DecidableEq, Repr

/-- `Sigil::as_str`. -/
def Sigil.as_str : Sigil → String
  | .dot => "." | .comma => "," | .semicolon => ";" | .colonDash => ":-"
  | .parenOpen => "(" | .parenClose => ")"
  | .braceOpen => "\x7b" | .braceClose => "\x7d"
  | .bracketOpen => "[" | .bracketClose => "]"
  | .angleOpen => "<" | .angleClose => ">"

/-- `Sigil::close_sigil`.  The source panics (`bug!()`) on non-open sigils;
the bracer only ever calls it on open sigils (stack frames are created only
for opens), so we return the input itself in the impossible cases. -/
def Sigil.close_sigil : Sigil → Sigil
  | .parenOpen => .parenClose
  | .braceOpen => .braceClose
  | .bracketOpen => .bracketClose
  | .angleOpen => .angleClose
  | s => s

/-- `Sigil::is_close_sigil` (bcts lexer; covers all four bracket pairs). -/
def Sigil.is_close_sigil : Sigil → Bool
  | .parenClose | .braceClose | .bracketClose | .angleClose => true
  | _ => false

/-- `lexer.rs` `TokenKind`. -/
inductive TokenKind where
  | word
  | sigil (s : Sigil)
  | string
  | whitespace
  | comment
  | error
deriving DecidableEq, Repr

/-- `lexer.rs` `Token`: a substring plus a kind.  We store the substring's
text directly (the Rust `SubText` is an interned range into the source). -/
structure Token where
  text : String
  kind : TokenKind
deriving DecidableEq, Repr

/-- `Token::is_close_sigil`. -/
def Token.is_close_sigil (t : Token) : Bool :=
  match t.kind with
  | .sigil s => s.is_close_sigil
  | _ => false

/-- `Token::debug_str`. -/
def Token.debug_str (t : Token) : String :=
  match t.kind with
  | .word | .string => t.text
  | .sigil s => s.as_str
  | .whitespace => "ws"
  | .comment => "cmt"
  | .error => "err"

/-- `bcts/src/bracer.rs` `Branch`. -/
structure Branch where
  real_token_range : Nat × Nat
  branches : Nat
  inserted_closes : Nat
  removed_closes : Nat
  errors : Nat
  open_sigil : Sigil
  close_sigil : Sigil
deriving DecidableEq, Repr

/-- The `BraceMap` accumulator local to `fn bracer`. -/
structure BraceMap where
  branches : List Branch := []
  inserted_closes : List (Nat × Sigil) := []
  removed_closes : List (Nat × Sigil) := []
  errors : List ((Nat × Nat) × Sigil) := []
deriving DecidableEq, Repr

/-- `BraceMap::append`. -/
def BraceMap.append (m o : BraceMap) : BraceMap :=
  { branches := m.branches ++ o.branches
    inserted_closes := m.inserted_closes ++ o.inserted_closes
    removed_closes := m.removed_closes ++ o.removed_closes
    errors := m.errors ++ o.errors }

/-- `Branch` construction as done at each `branches.push` site: counts are
the current lengths of the child map's four vectors. -/
def Branch.ofMap (range : Nat × Nat) (m : BraceMap) (os cs : Sigil) : Branch :=
  { real_token_range := range
    branches := m.branches.length
    inserted_closes := m.inserted_closes.length
    removed_closes := m.removed_closes.length
    errors := m.errors.length
    open_sigil := os
    close_sigil := cs }

/-- A stack frame of `fn bracer`: `(open_index, open_sigil, brace_map)`. -/
abbrev Frame : Type := Nat × Sigil × BraceMap

/-- The mutable state of `fn bracer`: the frame stack (head = top of stack)
and the top-level map. -/
structure BrSt where
  stack : List Frame
  top : BraceMap
deriving DecidableEq, Repr

/-- Push a completed branch and then append its child map into a map
(`parent_brace_map.branches.push(..); parent_brace_map.append(..)`). -/
def BraceMap.pushBranchAppend (pm : BraceMap) (b : Branch) (child : BraceMap) : BraceMap :=
  { pm with branches := pm.branches ++ [b] }.append child

/-- Direct the branch push at the parent frame map, or at the top map when
the stack is empty (`stack.last_mut() ... unwrap_or(&mut top_map)`). -/
def pushToParent (stack : List Frame) (top : BraceMap)
    (f : BraceMap → BraceMap) : List Frame × BraceMap :=
  match stack with
  | (pi, ps, pm) :: rest => ((pi, ps, f pm) :: rest, top)
  | [] => ([], f top)

/-- The mismatched-opener arm of `close_brace`: push the synthesised close
and the spanning error into the popped frame's own map, then build the
branch from that updated map.  The source has one textually identical arm
per open sigil; `none` models the final `bug!()` arm. -/
def mismatchArm (os : Sigil) (open_index index : Nat) (m : BraceMap) :
    Option (BraceMap × Branch) :=
  match os with
  | .parenOpen =>
    let m' := { m with inserted_closes := m.inserted_closes ++ [(index, Sigil.parenClose)]
                       errors := m.errors ++ [((open_index, index), Sigil.parenOpen)] }
    some (m', Branch.ofMap (open_index, index) m' .parenOpen .parenClose)
  | .braceOpen =>
    let m' := { m with inserted_closes := m.inserted_closes ++ [(index, Sigil.braceClose)]
                       errors := m.errors ++ [((open_index, index), Sigil.braceOpen)] }
    some (m', Branch.ofMap (open_index, index) m' .braceOpen .braceClose)
  | .bracketOpen =>
    let m' := { m with inserted_closes := m.inserted_closes ++ [(index, Sigil.bracketClose)]
                       errors := m.errors ++ [((open_index, index), Sigil.bracketOpen)] }
    some (m', Branch.ofMap (open_index, index) m' .bracketOpen .bracketClose)
  | .angleOpen =>
    let m' := { m with inserted_closes := m.inserted_closes ++ [(index, Sigil.angleClose)]
                       errors := m.errors ++ [((open_index, index), Sigil.angleOpen)] }
    some (m', Branch.ofMap (open_index, index) m' .angleOpen .angleClose)
  | _ => none

/-- The pop loop of `close_brace` (the `seen_open` branch).  Pops frames
until the matching opener; `none` models the `stack.pop().X()` panic on an
empty stack and the `bug!()` arm of the mismatch dispatch.  Each iteration
shortens the stack by one frame, so the loop is run with structural fuel
`stack.length + 1`, which can never run out before the stack empties. -/
def closeLoop (index : Nat) (open_s close_s : Sigil) :
    Nat → List Frame → BraceMap → Option (List Frame × BraceMap)
  | _, [], _ => none
  | 0, _ :: _, _ => none
  | fuel + 1, (open_index, open_sigil, brace_map) :: rest, top =>
    if open_sigil = open_s then
      let b := Branch.ofMap (open_index, index + 1) brace_map open_s close_s
      some (pushToParent rest top (fun pm => pm.pushBranchAppend b brace_map))
    else
      match mismatchArm open_sigil open_index index brace_map with
      | none => none
      | some (m', b) =>
        let (rest', top') := pushToParent rest top (fun pm => pm.pushBranchAppend b m')
        closeLoop index open_s close_s fuel rest' top'

/-- `close_brace`. -/
def close_brace (st : BrSt) (index : Nat) (open_s close_s : Sigil) : Option BrSt :=
  if st.stack.any (fun f => f.2.1 = open_s) then
    (closeLoop index open_s close_s (st.stack.length + 1) st.stack st.top).map
      (fun (stack', top') => ⟨stack', top'⟩)
  else
    let (stack', top') := pushToParent st.stack st.top (fun pm =>
      { pm with removed_closes := pm.removed_closes ++ [(index, close_s)]
                errors := pm.errors ++ [((index, index + 1), close_s)] })
    some ⟨stack', top'⟩

/-- One iteration of the `for (index, token) in tokens` loop. -/
def processTok (st : BrSt) (index : Nat) (k : TokenKind) : Option BrSt :=
  match k with
  | .sigil .parenOpen => some ⟨(index, Sigil.parenOpen, {}) :: st.stack, st.top⟩
  | .sigil .braceOpen => some ⟨(index, Sigil.braceOpen, {}) :: st.stack, st.top⟩
  | .sigil .bracketOpen => some ⟨(index, Sigil.bracketOpen, {}) :: st.stack, st.top⟩
  | .sigil .angleOpen => some ⟨(index, Sigil.angleOpen, {}) :: st.stack, st.top⟩
  | .sigil .parenClose => close_brace st index .parenOpen .parenClose
  | .sigil .braceClose => close_brace st index .braceOpen .braceClose
  | .sigil .bracketClose => close_brace st index .bracketOpen .bracketClose
  | .sigil .angleClose => close_brace st index .angleOpen .angleClose
  | _ => some st

/-- The token loop, starting at token index `i`. -/
def processFrom (i : Nat) (ks : List TokenKind) (st : BrSt) : Option BrSt :=
  match ks with
  | [] => some st
  | k :: rest => (processTok st i k).bind (processFrom (i + 1) rest)

/-- The end-of-input unwind loop (`while let Some(..) = stack.pop()`): each
surviving opener becomes a branch over `[open_index, num_tokens)` plus an
error pushed at the parent level; the child map is appended afterwards.
Each iteration shortens the stack by one frame; structural fuel
`stack.length + 1` never runs out (`none` is unreachable). -/
def unwind (num_tokens : Nat) : Nat → List Frame → BraceMap → Option BraceMap
  | _, [], top => some top
  | 0, _ :: _, _ => none
  | fuel + 1, (open_index, open_sigil, brace_map) :: rest, top =>
    let b := Branch.ofMap (open_index, num_tokens) brace_map open_sigil
      open_sigil.close_sigil
    let (rest', top') := pushToParent rest top (fun pm =>
      ({ pm with branches := pm.branches ++ [b]
                 errors := pm.errors ++ [((open_index, num_tokens), open_sigil)] : BraceMap }).append
        brace_map)
    unwind num_tokens fuel rest' top'

/-- `fn bracer` (bcts): fold the tokens, then unwind the remaining stack.
`none` models the panics, which never fire (the pop loop is guarded by
`seen_open`). -/
def bracer (tokens : List Token) : Option BraceMap :=
  (processFrom 0 (tokens.map Token.kind) ⟨[], {}⟩).bind
    (fun st => unwind tokens.length (st.stack.length + 1) st.stack st.top)

/-! ### The bracer tree iterator (`BracerIter`) -/

/-- `bcts/src/bracer.rs` `BracerIter`: the four subtree slice ranges and the
four cursors.  (`db` and `tree` are passed separately to the functions.) -/
structure BracerIter where
  real_token_range : Nat × Nat
  branches : Nat × Nat
  inserted_closes : Nat × Nat
  removed_closes : Nat × Nat
  next_token_index : Nat
  next_branch_index : Nat
  next_inserted_close_index : Nat
  next_removed_close_index : Nat
deriving DecidableEq, Repr

/-- `Bracer::iter`: the top-level iterator over the whole output. -/
def initIter (tokens : List Token) (t : BraceMap) : BracerIter :=
  { real_token_range := (0, tokens.length)
    branches := (0, t.branches.length)
    inserted_closes := (0, t.inserted_closes.length)
    removed_closes := (0, t.removed_closes.length)
    next_token_index := 0
    next_branch_index := 0
    next_inserted_close_index := 0
    next_removed_close_index := 0 }

/-- One step of `next2` yields either a real token or a branch together
with the iterator positioned on the branch's subtree slices. -/
inductive TreeTokenStep where
  | token (t : Token)
  | branch (s : Sigil) (iter : BracerIter)
deriving DecidableEq, Repr

/-- The `while let` loop at the end of the branch-entry arm of `next2`:
skip removed closes whose token index now lies behind the parent cursor.
Each iteration advances the cursor inside the prefix
`[0 .. removed_closes.2]`, so structural fuel `t.removed_closes.length + 1`
never runs out (on exhaustion the state is returned unchanged, which is
what the source loop does when the `get` fails). -/
def skipRemoved (t : BraceMap) : Nat → BracerIter → BracerIter
  | 0, st => st
  | fuel + 1, st =>
    match (t.removed_closes.take st.removed_closes.2).get? st.next_removed_close_index with
    | some rc =>
      if rc.1 < st.next_token_index then
        skipRemoved t fuel { st with
          next_removed_close_index := st.next_removed_close_index + 1 }
      else st
    | none => st

/-- `BracerIter::next2`.  The source first re-slices the four vectors by the
subtree ranges (which panics if a range is malformed), then shadows them by
the prefixes `[0..end]` that the cursor `get`s actually index; we model the
slice well-formedness checks and use the prefix gets.  `bug!()`, the
`panic!` in the removed-close arm and the `assert_eq!` in the
inserted-close arm are modelled as `.panicked`.  The `continue`s of the
source's `loop` are fuelled recursive calls. -/
def next2 : Nat → List Token → BraceMap → BracerIter →
    Res (Option TreeTokenStep × BracerIter)
  | 0, _, _, _ => .nofuel
  | fuel + 1, tokens, t, st =>
    if ¬(st.real_token_range.1 ≤ st.real_token_range.2 ∧
         st.real_token_range.2 ≤ tokens.length ∧
         st.branches.1 ≤ st.branches.2 ∧ st.branches.2 ≤ t.branches.length ∧
         st.inserted_closes.1 ≤ st.inserted_closes.2 ∧
         st.inserted_closes.2 ≤ t.inserted_closes.length ∧
         st.removed_closes.1 ≤ st.removed_closes.2 ∧
         st.removed_closes.2 ≤ t.removed_closes.length) then
      .panicked
    else
      let next_token := (tokens.take st.real_token_range.2).get? st.next_token_index
      let next_branch := (t.branches.take st.branches.2).get? st.next_branch_index
      let next_inserted_close :=
        (t.inserted_closes.take st.inserted_closes.2).get? st.next_inserted_close_index
      let next_removed_close :=
        (t.removed_closes.take st.removed_closes.2).get? st.next_removed_close_index
      match next_token, next_branch, next_inserted_close, next_removed_close with
      | some tok, none, _, none =>
        let st' := { st with next_token_index := st.next_token_index + 1 }
        if ¬tok.is_close_sigil then .ok (some (.token tok), st')
        else next2 fuel tokens t st'
      | some tok, none, _, some rc =>
        match compare st.next_token_index rc.1 with
        | .lt =>
          let st' := { st with next_token_index := st.next_token_index + 1 }
          if ¬tok.is_close_sigil then .ok (some (.token tok), st')
          else .panicked
        | .eq =>
          next2 fuel tokens t { st with
            next_token_index := st.next_token_index + 1
            next_removed_close_index := st.next_removed_close_index + 1 }
        | .gt => .panicked
      | some _, some nb, _, _ =>
        match compare st.next_token_index nb.real_token_range.1 with
        | .lt =>
          let tok := (tokens.take st.real_token_range.2).get? st.next_token_index
          match tok with
          | some tok =>
            .ok (some (.token tok),
              { st with next_token_index := st.next_token_index + 1 })
          | none => .panicked
        | .eq =>
          let st1 := { st with
            next_token_index := st.next_token_index + 1
            next_branch_index := st.next_branch_index + 1 }
          let sub : BracerIter :=
            { real_token_range := (nb.real_token_range.1 + 1, nb.real_token_range.2)
              branches := (st1.next_branch_index, st1.next_branch_index + nb.branches)
              inserted_closes := (st1.next_inserted_close_index,
                st1.next_inserted_close_index + nb.inserted_closes)
              removed_closes := (st1.next_removed_close_index,
                st1.next_removed_close_index + nb.removed_closes)
              next_token_index := st1.next_token_index
              next_branch_index := st1.next_branch_index
              next_inserted_close_index := st1.next_inserted_close_index
              next_removed_close_index := st1.next_removed_close_index }
          let st2 := { st1 with
            next_token_index := nb.real_token_range.2
            next_branch_index := st1.next_branch_index + nb.branches
            next_inserted_close_index :=
              st1.next_inserted_close_index + nb.inserted_closes
            next_removed_close_index :=
              st1.next_removed_close_index + nb.removed_closes }
          .ok (some (.branch nb.open_sigil sub),
            skipRemoved t (t.removed_closes.length + 1) st2)
        | .gt => .panicked
      | none, some _, _, _ => .panicked
      | none, none, some ic, _ =>
        if ic.1 = st.next_token_index then
          next2 fuel tokens t { st with
            next_inserted_close_index := st.next_inserted_close_index + 1 }
        else .panicked
      | none, none, none, some _ => .panicked
      | none, none, none, none => .ok (none, st)

/-- A materialised bracer tree node, as produced by fully consuming a
`BracerIter` and recursively consuming every nested branch iterator
(the order in which the tests and the debug printer consume it). -/
inductive TreeToken where
  | token (t : Token)
  | branch (s : Sigil) (subs : List TreeToken)

/-- Recursively consume an iterator: repeated `next2`, entering each nested
branch iterator in full before continuing with the parent. -/
def consume : Nat → List Token → BraceMap → BracerIter → Res (List TreeToken)
  | 0, _, _, _ => .nofuel
  | fuel + 1, tokens, t, st =>
    match next2 (fuel + 1) tokens t st with
    | .panicked => .panicked
    | .nofuel => .nofuel
    | .ok (none, _) => .ok []
    | .ok (some (.token tok), st') =>
      match consume fuel tokens t st' with
      | .ok l => .ok (.token tok :: l)
      | .panicked => .panicked
      | .nofuel => .nofuel
    | .ok (some (.branch s sub), st') =>
      match consume fuel tokens t sub with
      | .ok subs =>
        match consume fuel tokens t st' with
        | .ok l => .ok (.branch s subs :: l)
        | .panicked => .panicked
        | .nofuel => .nofuel
      | .panicked => .panicked
      | .nofuel => .nofuel

mutual

/-- `Bracer::debug_write`, materialised, for one tree token: a token
renders with `debug_str`; a branch renders as the open sigil, the
recursively rendered subtree, and the synthesised close sigil (with the
inner space only when the subtree is non-empty). -/
def renderTree : TreeToken → String
  | .token tok => tok.debug_str
  | .branch s subs =>
    s.as_str ++ " " ++ renderTrees subs ++
      (if subs.isEmpty then "" else " ") ++ s.close_sigil.as_str

/-- Render a token list, space separated (the space is written only when
the peeked iterator has a further item). -/
def renderTrees : List TreeToken → String
  | [] => ""
  | [x] => renderTree x
  | x :: y :: rest => renderTree x ++ " " ++ renderTrees (y :: rest)

end

/-- Run the bracer on a token list and fully consume its tree. -/
def consumeBracer (tokens : List Token) : Res (List TreeToken) :=
  match bracer tokens with
  | some t => consume (8 * tokens.length + 64) tokens t (initIter tokens t)
  | none => .panicked

/-- Run the bracer on a token list and render the consumed tree
(the `dbglex` test helper, minus the lexing stages). -/
def renderBracer (tokens : List Token) : Res String :=
  match consumeBracer tokens with
  | .ok l => .ok (renderTrees l)
  | .panicked => .panicked
  | .nofuel => .nofuel

/-- Shorthand for a sigil token. -/
def sigTok (s : Sigil) : Token := ⟨s.as_str, .sigil s⟩

/-! ### Text model

Rust `str` is valid UTF-8 indexed by byte offsets; we model text as
`List Char` and compute byte offsets through the UTF-8 widths of the
characters.  Byte-level searches for ASCII needles (`memchr`, substring
search for `"/*"` etc.) coincide with character-level walks because in
UTF-8 a byte below 0x80 occurs only as a complete ASCII character, so they
are embedded as character walks that accumulate byte offsets. -/

/-- `char::len_utf8`. -/
def utf8Len (c : Char) : Nat :=
  if c.val < 0x80 then 1 else if c.val < 0x800 then 2
  else if c.val < 0x10000 then 3 else 4

/-- `str::len`: total byte length. -/
def byteLen (cs : List Char) : Nat := (cs.map utf8Len).sum

/-- Byte position `p` lies on a character boundary of `cs`. -/
def IsCharBoundary (cs : List Char) (p : Nat) : Prop :=
  ∃ pre suf, cs = pre ++ suf ∧ byteLen pre = p

/-- First occurrence of any character of `set`: its byte offset and the
suffix starting there (`str::match_indices` with a `&[char]` pattern). -/
def findStart (set : List Char) : List Char → Option (Nat × List Char)
  | [] => none
  | c :: r =>
    if set.contains c then some (0, c :: r)
    else (findStart set r).map (fun (n, s) => (utf8Len c + n, s))

/-- `memchr::memchr` for an ASCII needle: byte offset of its first
occurrence. -/
def memchrChar (target : Char) (cs : List Char) : Option Nat :=
  (findStart [target] cs).map (·.1)

/-- Byte offsets of every occurrence of the two-character ASCII pattern
`a b` (`str::match_indices` with a two-byte pattern; the patterns used,
`"/*"` and `"*/"`, cannot self-overlap, so the sliding walk agrees with
the iterator's non-overlapping semantics). -/
def matchIndices2 (a b : Char) : List Char → List Nat
  | c :: c2 :: r =>
    (if c = a ∧ c2 = b then [0] else []) ++
      (matchIndices2 a b (c2 :: r)).map (utf8Len c + ·)
  | _ => []

/-- Take exactly `n` bytes from the front; `none` when `n` is not on a
character boundary or exceeds the text (a `str` slice panic). -/
def takeBytes : List Char → Nat → Option (List Char)
  | _, 0 => some []
  | [], _ + 1 => none
  | c :: r, n + 1 =>
    if utf8Len c ≤ n + 1 then (takeBytes r (n + 1 - utf8Len c)).map (c :: ·)
    else none

/-- Drop exactly `n` bytes from the front (`none` on a slice panic). -/
def dropBytes : List Char → Nat → Option (List Char)
  | cs, 0 => some cs
  | [], _ + 1 => none
  | c :: r, n + 1 =>
    if utf8Len c ≤ n + 1 then dropBytes r (n + 1 - utf8Len c)
    else none

/-- `&text[a..b]` (`none` on a slice panic). -/
def sliceBytes (cs : List Char) (a b : Nat) : Option (List Char) :=
  if a ≤ b then (dropBytes cs a).bind (fun suf => takeBytes suf (b - a))
  else none

/-! ### Source segmenter (`bct/src/source_map.rs`) -/

/-- `chunk.rs` `Chunk`: a text plus the three classified range lists
(byte ranges, relative to the chunk's own text). -/
structure Chunk where
  text : List Char
  comments : List (Nat × Nat) := []
  strings : List (Nat × Nat) := []
  errors : List (Nat × Nat) := []
deriving DecidableEq, Repr

/-- `basic_config` comment start characters. -/
def comment_start_chars : List Char := ['%', '/']

/-- `basic_config` string start characters. -/
def string_start_chars : List Char := ['"']

/-- A `/*` or `*/` token inside a nested comment. -/
inductive CKind where
  | copen
  | cclose
deriving DecidableEq, Repr

/-- `le` on `(index, kind)` pairs as compared by `itertools::merge`
(lexicographic; `Open < Close`). -/
def ckindLe (x y : Nat × CKind) : Bool :=
  x.1 < y.1 || (x.1 = y.1 && (x.2 = CKind.copen || y.2 = CKind.cclose))

/-- `itertools::merge` of the two sorted brace-token streams.  Fuelled with
the combined length, which always suffices. -/
def mergePairs : Nat → List (Nat × CKind) → List (Nat × CKind) → List (Nat × CKind)
  | 0, xs, ys => xs ++ ys
  | _ + 1, [], ys => ys
  | _ + 1, xs, [] => xs
  | fuel + 1, x :: xs, y :: ys =>
    if ckindLe x y then x :: mergePairs fuel xs (y :: ys)
    else y :: mergePairs fuel (x :: xs) ys

/-- The `scan` that drops a brace token overlapping the previously kept one
(second match position exactly previous + 1). -/
def removeOverlaps : Option Nat → List (Nat × CKind) → List (Nat × CKind)
  | _, [] => []
  | none, x :: r => x :: removeOverlaps (some x.1) r
  | some pi, x :: r =>
    if x.1 = pi + 1 then removeOverlaps (some pi) r
    else x :: removeOverlaps (some x.1) r

/-- The stack loop of `parse_nested_comment`.  `.ok (some i)` is the
`return Some(Ok(index + 2))` with `index = i`; `.ok none` means the items
ran out with openers outstanding (`Err`); `.panicked` models the
`stack.pop().X()` underflow and the final `unreachable!()`. -/
def commentLoop : List (Nat × CKind) → List Nat → Res (Option Nat)
  | [], [] => .panicked
  | [], _ :: _ => .ok none
  | (i, .copen) :: r, st => commentLoop r (i :: st)
  | (i, .cclose) :: r, st =>
    match st with
    | [] => .panicked
    | [_] => .ok (some i)
    | _ :: st' => commentLoop r st'

/-- `parse_nested_comment`.  `.ok (some (.ok n))` is `Some(Ok(n))`
(balanced comment of `n` bytes), `.ok (some (.error n))` is `Some(Err(n))`
(unterminated).  `.panicked` models the leading `assert!` and the loop's
panics. -/
def parse_nested_comment (cs : List Char) : Res (Option (Except Nat Nat)) :=
  match cs with
  | c :: c2 :: _ =>
    if c = '/' ∧ c2 = '*' then
      let opens := (matchIndices2 '/' '*' cs).map (fun i => (i, CKind.copen))
      let closes := (matchIndices2 '*' '/' cs).map (fun i => (i, CKind.cclose))
      let all_braces := mergePairs (opens.length + closes.length + 1) opens closes
      let without_overlaps := removeOverlaps none all_braces
      match commentLoop without_overlaps [] with
      | .ok (some i) => .ok (some (.ok (i + 2)))
      | .ok none => .ok (some (.error (byteLen cs)))
      | .panicked => .panicked
      | .nofuel => .nofuel
    else .panicked
  | _ => .panicked

/-- `basic_parse_comment`.  The final `unreachable!()` (first byte neither
`%` nor `/`) is `.panicked`. -/
def basic_parse_comment (cs : List Char) : Res (Option (Except Nat Nat)) :=
  match cs with
  | c :: rest =>
    if c = '%' then
      match memchrChar '\n' cs with
      | some newline => .ok (some (.ok newline))
      | none => .ok (some (.ok (byteLen cs)))
    else if c = '/' then
      match rest with
      | c2 :: _ => if c2 = '*' then parse_nested_comment cs else .ok none
      | [] => .ok none
    else .panicked
  | [] => .panicked

/-- `basic_parse_string`. -/
def basic_parse_string (cs : List Char) : Res (Option (Except Nat Nat)) :=
  match cs with
  | c :: rest =>
    if c = '"' then
      match memchrChar '"' rest with
      | some q => .ok (some (.ok (q + 2)))
      | none => .ok (some (.error (byteLen cs)))
    else .panicked
  | [] => .panicked

/-- `State::parse_comment`: dispatch guarded by the comment start set
(`text.chars().next().X()` panics on empty text). -/
def parse_comment_at (cs : List Char) : Res (Option (Except Nat Nat)) :=
  match cs with
  | [] => .panicked
  | c :: _ =>
    if comment_start_chars.contains c then basic_parse_comment cs else .ok none

/-- `State::parse_string`. -/
def parse_string_at (cs : List Char) : Res (Option (Except Nat Nat)) :=
  match cs with
  | [] => .panicked
  | c :: _ =>
    if string_start_chars.contains c then basic_parse_string cs else .ok none

/-- The three range lists accumulated by the segmenter (`ChunkWip` with
`chunk_start = 0`). -/
structure SegWip where
  comments : List (Nat × Nat) := []
  strings : List (Nat × Nat) := []
  errors : List (Nat × Nat) := []
deriving DecidableEq, Repr

/-- The segmenter's main loop (`State::map` + `State::step`), walking the
remaining suffix with its byte position in the full text.  Every iteration
advances the position by at least one byte, so fuel `byteLen cs + 1`
suffices (proved below). -/
def segGo : Nat → List Char → Nat → SegWip → Res SegWip
  | 0, _, _, _ => .nofuel
  | fuel + 1, cs, position, wip =>
    match findStart (comment_start_chars ++ string_start_chars) cs with
    | none => .ok wip
    | some (off, suf) =>
      let position := position + off
      match parse_comment_at suf, parse_string_at suf with
      | .ok parse_comment_res, .ok parse_string_res =>
        -- `State::step` (chunk_start is 0, so chunk_offset = position):
        -- classify, push the range, compute the advancement in bytes.
        let stepRes : Res (SegWip × Nat) :=
          match parse_comment_res, parse_string_res with
          | some (.ok n), none =>
            .ok ({ wip with comments := wip.comments ++ [(position, position + n)] }, n)
          | some (.error n), none =>
            .ok ({ wip with errors := wip.errors ++ [(position, position + n)] }, n)
          | none, some (.ok n) =>
            .ok ({ wip with strings := wip.strings ++ [(position, position + n)] }, n)
          | none, some (.error n) =>
            .ok ({ wip with errors := wip.errors ++ [(position, position + n)] }, n)
          | none, none =>
            -- advance one byte past a `/` that starts no comment; the
            -- `assert!(position <= len)` holds because `suf` is nonempty
            if 1 ≤ byteLen suf then .ok (wip, 1) else .panicked
          | _, _ => .panicked  -- unreachable!: both parsers claimed the char
        match stepRes with
        | .ok (wip', adv) =>
          match dropBytes suf adv with
          | some suf' => segGo fuel suf' (position + adv) wip'
          | none => .panicked
        | .panicked => .panicked
        | .nofuel => .nofuel
      | .panicked, _ => .panicked
      | _, .panicked => .panicked
      | _, _ => .nofuel

/-- `basic_source_map` / `source_map` with `basic_config`: segment a whole
source into one `Chunk` whose ranges are relative to position 0. -/
def source_map (cs : List Char) : Res Chunk :=
  match segGo (byteLen cs + 1) cs 0 {} with
  | .ok w => .ok ⟨cs, w.comments, w.strings, w.errors⟩
  | .panicked => .panicked
  | .nofuel => .nofuel

example : source_map "abbdd%".data = .ok ⟨"abbdd%".data, [(5, 6)], [], []⟩ := rfl
example : source_map "ab\"x".data = .ok ⟨"ab\"x".data, [], [], [(2, 4)]⟩ := rfl
example : source_map "abbdd\"x\"".data = .ok ⟨"abbdd\"x\"".data, [], [(5, 8)], []⟩ := rfl
example : source_map "/*/**/*/".data = .ok ⟨"/*/**/*/".data, [(0, 8)], [], []⟩ := rfl
example : source_map "/*/**/ab".data = .ok ⟨"/*/**/ab".data, [], [], [(0, 8)]⟩ := rfl
example : source_map "/* */".data = .ok ⟨"/* */".data, [(0, 5)], [], []⟩ := rfl
example : source_map "\"% . \"".data = .ok ⟨"\"% . \"".data, [], [(0, 6)], []⟩ := rfl
example : source_map "/ a".data = .ok ⟨"/ a".data, [], [], []⟩ := rfl
example : source_map "% \" . \"\n".data = .ok ⟨"% \" . \"\n".data, [(0, 7)], [], []⟩ := rfl

/-! ### `Chunk::ranges` (`bct/src/chunk.rs`) -/

/-- `chunk.rs` `RangeKind`. -/
inductive RangeKind where
  | comment
  | string
  | error
  | unknown
deriving DecidableEq, Repr

/-- `itertools::merge_by` on tagged ranges, comparing by `start` (the
predicate `x.0.start <= y.0.start`). -/
def mergeRangesBy : Nat → List ((Nat × Nat) × RangeKind) → List ((Nat × Nat) × RangeKind) →
    List ((Nat × Nat) × RangeKind)
  | 0, xs, ys => xs ++ ys
  | _ + 1, [], ys => ys
  | _ + 1, xs, [] => xs
  | fuel + 1, x :: xs, y :: ys =>
    if x.1.1 ≤ y.1.1 then x :: mergeRangesBy fuel xs (y :: ys)
    else y :: mergeRangesBy fuel (x :: xs) ys

/-- The gap-filling walk of `Ranges::next`: known ranges interleaved with
`Unknown` ranges covering the unclaimed bytes.  `.panicked` models the
`Ordering::Greater => unreachable!()` arm (position past a known range). -/
def fillRanges (chunk_len : Nat) : List ((Nat × Nat) × RangeKind) → Nat →
    Res (List ((Nat × Nat) × RangeKind))
  | [], position =>
    if position < chunk_len then .ok [((position, chunk_len), .unknown)]
    else .ok []
  | (r, k) :: rest, position =>
    match compare position r.1 with
    | .lt =>
      match fillRanges chunk_len rest r.2 with
      | .ok l => .ok (((position, r.1), .unknown) :: (r, k) :: l)
      | e => e
    | .eq =>
      match fillRanges chunk_len rest r.2 with
      | .ok l => .ok ((r, k) :: l)
      | e => e
    | .gt => .panicked

/-- `Chunk::ranges`. -/
def Chunk.ranges (c : Chunk) : Res (List ((Nat × Nat) × RangeKind)) :=
  let comments := c.comments.map (fun r => (r, RangeKind.comment))
  let strings := c.strings.map (fun r => (r, RangeKind.string))
  let errors := c.errors.map (fun r => (r, RangeKind.error))
  let m1 := mergeRangesBy (comments.length + strings.length + 1) comments strings
  let known := mergeRangesBy (m1.length + errors.length + 1) m1 errors
  fillRanges (byteLen c.text) known 0

example : Chunk.ranges ⟨"ab\"x\"c".data, [], [(2, 5)], []⟩ =
    .ok [((0, 2), .unknown), ((2, 5), .string), ((5, 6), .unknown)] := rfl

/-! ### Tokenizer (`bct/src/lexer.rs`)

The tokenizer is parameterised by the crate's sigil enumeration
(`enum_iterator::all::<Sigil>()` in declaration order): the bct crate has
eight sigils, the bcts crate twelve. -/

/-- The bct crate's `Sigil` enumeration order. -/
def bct_sigils : List Sigil :=
  [.dot, .comma, .semicolon, .colonDash,
   .parenOpen, .parenClose, .braceOpen, .braceClose]

/-- Modelled from the spec: the bcts crate's `Sigil` enumeration
(`bcts/src/lexer.rs` is not in this tree; its `Sigil` variants are fixed by
their uses in `bcts/src/bracer.rs` and the spec's bit-exact sigil table,
which extends the bct table with the bracket and angle pairs). -/
def bcts_sigils : List Sigil :=
  [.dot, .comma, .semicolon, .colonDash,
   .parenOpen, .parenClose, .braceOpen, .braceClose,
   .bracketOpen, .bracketClose, .angleOpen, .angleClose]

/-- `Sigil::start_char` (`as_str().chars().next().X()`). -/
def Sigil.start_char (s : Sigil) : Char := s.as_str.data.headD ' '

/-- Rust `char::is_whitespace` (Unicode `White_Space`), restricted to its
ASCII fragment; every input considered by the claims is ASCII. -/
def charIsWhitespace (c : Char) : Bool :=
  c.val = 9 || c.val = 10 || c.val = 11 || c.val = 12 || c.val = 13 || c.val = 32

/-- Rust `char::is_alphanumeric`, restricted to its ASCII fragment. -/
def charIsAlphanumeric (c : Char) : Bool :=
  ('a' ≤ c && c ≤ 'z') || ('A' ≤ c && c ≤ 'Z') || ('0' ≤ c && c ≤ '9')

/-- `Tokenizer::is_word_start`. -/
def is_word_start (c : Char) : Bool := charIsAlphanumeric c || c = '_'

/-- `Tokenizer::is_sigil_start`. -/
def is_sigil_start (sigils : List Sigil) (c : Char) : Bool :=
  sigils.any (fun s => s.start_char = c)

/-- `Tokenizer`'s `NextToken` classification. -/
inductive NextToken where
  | whitespace
  | word
  | sigil
  | error
deriving DecidableEq, Repr

/-- `Tokenizer::token_start`. -/
def token_start (sigils : List Sigil) (c : Char) : NextToken :=
  if charIsWhitespace c then .whitespace
  else if is_word_start c then .word
  else if is_sigil_start sigils c then .sigil
  else .error

/-- `Tokenizer::peek`: first character of `text[range.start..range.end]`
(the slice panics if the range is malformed). -/
def tok_peek (text : List Char) (r : Nat × Nat) : Res (Option Char) :=
  match sliceBytes text r.1 r.2 with
  | some cs => .ok cs.head?
  | none => .panicked

/-- `Tokenizer::peek_token`. -/
def tok_peek_token (sigils : List Sigil) (text : List Char) (r : Nat × Nat) :
    Res (Option NextToken) :=
  match tok_peek text r with
  | .ok oc => .ok (oc.map (token_start sigils))
  | .panicked => .panicked
  | .nofuel => .nofuel

/-- The `while let Some(ch) = self.peek()` consumption loop shared by
`eat_word` and `eat_whitespace`: advance while the predicate holds
(`eat_char` adds `ch.len_utf8()` and asserts the range stays ordered). -/
def eatWhile (pred : Char → Bool) : Nat → List Char → (Nat × Nat) → Res (Nat × Nat)
  | 0, _, _ => .nofuel
  | fuel + 1, text, r =>
    match tok_peek text r with
    | .ok none => .ok r
    | .ok (some c) =>
      if pred c then
        if r.1 + utf8Len c ≤ r.2 then eatWhile pred fuel text (r.1 + utf8Len c, r.2)
        else .panicked
      else .ok r
    | .panicked => .panicked
    | .nofuel => .nofuel

/-- Build a token from the consumed span `start .. r.1`
(`chunk_text.sub(db, start..range.start)`). -/
def spanToken (text : List Char) (start stop : Nat) (kind : TokenKind) :
    Res Token :=
  match sliceBytes text start stop with
  | some cs => .ok ⟨⟨cs⟩, kind⟩
  | none => .panicked

/-- `Tokenizer::eat_word`. -/
def eat_word (sigils : List Sigil) (fuel : Nat) (text : List Char) (r : Nat × Nat) :
    Res (Token × (Nat × Nat)) :=
  match tok_peek_token sigils text r with
  | .ok (some .word) =>
    match eatWhile is_word_start fuel text r with
    | .ok r' =>
      if r.1 < r'.1 then
        match spanToken text r.1 r'.1 .word with
        | .ok t => .ok (t, r')
        | .panicked => .panicked
        | .nofuel => .nofuel
      else .panicked  -- assert!(start < self.range.start)
    | .panicked => .panicked
    | .nofuel => .nofuel
  | .ok _ => .panicked  -- assert_eq!(self.peek_token(), Some(NextToken::Word))
  | .panicked => .panicked
  | .nofuel => .nofuel

/-- `Tokenizer::eat_whitespace`. -/
def eat_whitespace (sigils : List Sigil) (fuel : Nat) (text : List Char)
    (r : Nat × Nat) : Res (Token × (Nat × Nat)) :=
  match tok_peek_token sigils text r with
  | .ok (some .whitespace) =>
    match eatWhile charIsWhitespace fuel text r with
    | .ok r' =>
      if r.1 < r'.1 then
        match spanToken text r.1 r'.1 .whitespace with
        | .ok t => .ok (t, r')
        | .panicked => .panicked
        | .nofuel => .nofuel
      else .panicked
    | .panicked => .panicked
    | .nofuel => .nofuel
  | .ok _ => .panicked
  | .panicked => .panicked
  | .nofuel => .nofuel

/-- The recovery table inside `eat_error_from`.  The first two arms are
`unreachable!()`. -/
def errRecover : NextToken → NextToken → Res Bool
  | .whitespace, _ => .panicked
  | .word, _ => .panicked
  | .sigil, .error => .ok false
  | .sigil, .whitespace => .ok true
  | .sigil, .word => .ok true
  | .sigil, .sigil => .ok true
  | .error, .error => .ok false
  | .error, .whitespace => .ok true
  | .error, .word => .ok true
  | .error, .sigil => .ok true

/-- The consumption loop of `eat_error_from`. -/
def eatErrorWhile (sigils : List Sigil) (start_kind : NextToken) :
    Nat → List Char → (Nat × Nat) → Res (Nat × Nat)
  | 0, _, _ => .nofuel
  | fuel + 1, text, r =>
    match tok_peek text r with
    | .ok none => .ok r
    | .ok (some c) =>
      match errRecover start_kind (token_start sigils c) with
      | .ok recover =>
        if ¬recover then
          if r.1 + utf8Len c ≤ r.2 then
            eatErrorWhile sigils start_kind fuel text (r.1 + utf8Len c, r.2)
          else .panicked
        else .ok r
      | .panicked => .panicked
      | .nofuel => .nofuel
    | .panicked => .panicked
    | .nofuel => .nofuel

/-- `Tokenizer::eat_error_from`.  Note the entry `assert_eq!` demands the
next token be whitespace — which is false at both call sites (the next
token classifies as `Sigil` or `Error` there), and `start` is computed as
`range.start.checked_sub(1).X()` although nothing was consumed. -/
def eat_error_from (sigils : List Sigil) (fuel : Nat) (text : List Char)
    (r : Nat × Nat) (start_ch : Char) : Res (Token × (Nat × Nat)) :=
  match tok_peek_token sigils text r with
  | .ok (some .whitespace) =>
    let start_kind := token_start sigils start_ch
    match r.1 with
    | 0 => .panicked  -- start = range.start.checked_sub(1).X()
    | start + 1 =>
      match eatErrorWhile sigils start_kind fuel text r with
      | .ok r' =>
        if start < r'.1 then
          match spanToken text start r'.1 .error with
          | .ok t => .ok (t, r')
          | .panicked => .panicked
          | .nofuel => .nofuel
        else .panicked
      | .panicked => .panicked
      | .nofuel => .nofuel
  | .ok _ => .panicked  -- assert_eq!(self.peek_token(), Some(NextToken::Whitespace))
  | .panicked => .panicked
  | .nofuel => .nofuel

/-- `Tokenizer::eat_sigil`: try each sigil string in enumeration order as a
prefix of `text[range]`; fall back to `eat_error_from(self.peek().X())`. -/
def eat_sigil (sigils : List Sigil) (fuel : Nat) (text : List Char)
    (r : Nat × Nat) : Res (Token × (Nat × Nat)) :=
  match tok_peek_token sigils text r with
  | .ok (some .sigil) =>
    match sliceBytes text r.1 r.2 with
    | none => .panicked
    | some csr =>
      match sigils.find? (fun s => s.as_str.data.isPrefixOf csr) with
      | some s =>
        .ok (⟨s.as_str, .sigil s⟩, (r.1 + byteLen s.as_str.data, r.2))
      | none =>
        match csr.head? with
        | some c => eat_error_from sigils fuel text r c
        | none => .panicked  -- self.peek().X()
  | .ok _ => .panicked  -- assert_eq!(self.peek_token(), Some(NextToken::Sigil))
  | .panicked => .panicked
  | .nofuel => .nofuel

/-- `Tokenizer::eat_error`. -/
def eat_error (sigils : List Sigil) (fuel : Nat) (text : List Char)
    (r : Nat × Nat) : Res (Token × (Nat × Nat)) :=
  match tok_peek text r with
  | .ok (some c) => eat_error_from sigils fuel text r c
  | .ok none => .panicked  -- self.peek().X()
  | .panicked => .panicked
  | .nofuel => .nofuel

/-- `Tokenizer::next`. -/
def tok_next (sigils : List Sigil) (fuel : Nat) (text : List Char)
    (r : Nat × Nat) : Res (Option (Token × (Nat × Nat))) :=
  match tok_peek_token sigils text r with
  | .ok none => .ok none
  | .ok (some .whitespace) =>
    match eat_whitespace sigils fuel text r with
    | .ok x => .ok (some x)
    | .panicked => .panicked
    | .nofuel => .nofuel
  | .ok (some .word) =>
    match eat_word sigils fuel text r with
    | .ok x => .ok (some x)
    | .panicked => .panicked
    | .nofuel => .nofuel
  | .ok (some .sigil) =>
    match eat_sigil sigils fuel text r with
    | .ok x => .ok (some x)
    | .panicked => .panicked
    | .nofuel => .nofuel
  | .ok (some .error) =>
    match eat_error sigils fuel text r with
    | .ok x => .ok (some x)
    | .panicked => .panicked
    | .nofuel => .nofuel
  | .panicked => .panicked
  | .nofuel => .nofuel

/-- The `iter::from_fn(|| tokenizer.next())` collection loop over one
`Unknown` region. -/
def lexRegion (sigils : List Sigil) : Nat → List Char → (Nat × Nat) →
    Res (List Token)
  | 0, _, _ => .nofuel
  | fuel + 1, text, r =>
    match tok_next sigils (fuel + 1) text r with
    | .ok none => .ok []
    | .ok (some (t, r')) =>
      match lexRegion sigils fuel text r' with
      | .ok l => .ok (t :: l)
      | .panicked => .panicked
      | .nofuel => .nofuel
    | .panicked => .panicked
    | .nofuel => .nofuel

/-- `lex_chunk`: one pre-classified token per comment/string/error range,
and the tokenizer over each `Unknown` region. -/
def lex_chunk (sigils : List Sigil) (c : Chunk) : Res (List Token) :=
  match Chunk.ranges c with
  | .ok ranges =>
    let fuel := byteLen c.text + 1
    let rec go : List ((Nat × Nat) × RangeKind) → Res (List Token)
      | [] => .ok []
      | (r, kind) :: rest =>
        match kind with
        | .comment =>
          match spanToken c.text r.1 r.2 .comment with
          | .ok t =>
            match go rest with
            | .ok l => .ok (t :: l)
            | e => e
          | .panicked => .panicked
          | .nofuel => .nofuel
        | .string =>
          match spanToken c.text r.1 r.2 .string with
          | .ok t =>
            match go rest with
            | .ok l => .ok (t :: l)
            | e => e
          | .panicked => .panicked
          | .nofuel => .nofuel
        | .error =>
          match spanToken c.text r.1 r.2 .error with
          | .ok t =>
            match go rest with
            | .ok l => .ok (t :: l)
            | e => e
          | .panicked => .panicked
          | .nofuel => .nofuel
        | .unknown =>
          match lexRegion sigils fuel c.text r with
          | .ok ts =>
            match go rest with
            | .ok l => .ok (ts ++ l)
            | e => e
          | .panicked => .panicked
          | .nofuel => .nofuel
    go ranges
  | .panicked => .panicked
  | .nofuel => .nofuel

/-- `Token::debug_str` concatenation used by the lexer test helper. -/
def debugTokens (ts : List Token) : String :=
  String.intercalate " " (ts.map Token.debug_str)

example : (lex_chunk bct_sigils ⟨"a :- b \n c".data, [], [], []⟩).map debugTokens =
    .ok "a ws :- ws b ws c" := rfl
example : (lex_chunk bct_sigils ⟨"()\x7b\x7d)\x7b".data, [], [], []⟩).map debugTokens =
    .ok "( ) \x7b \x7d ) \x7b" := rfl
example : lex_chunk bct_sigils ⟨"@".data, [], [], []⟩ = .panicked := rfl
example : lex_chunk bct_sigils ⟨":a".data, [], [], []⟩ = .panicked := rfl
example : (lex_chunk bcts_sigils ⟨"a[b]c".data, [], [], []⟩).map debugTokens =
    .ok "a [ b ] c" := rfl

/-! ### Chunker (`bct/src/chunks.rs`), with `basic_config`
(anchor characters `['.']`, `basic_try_chunk`). -/

/-- `chunks.rs` `basic_config` anchor characters. -/
def chunk_start_chars : List Char := ['.']

/-- `basic_try_chunk`: a dot starts a one-byte chunk boundary
(the `assert_eq!` on the first byte is `.panicked`). -/
def basic_try_chunk (cs : List Char) : Res (Option Nat) :=
  match cs with
  | c :: _ => if c = '.' then .ok (some 1) else .panicked
  | [] => .panicked

/-- `State::try_chunk`: dispatch guarded by the anchor set
(`text.chars().next().X()` panics on empty text). -/
def try_chunk_at (cs : List Char) : Res (Option Nat) :=
  match cs with
  | [] => .panicked
  | c :: _ =>
    if chunk_start_chars.contains c then basic_try_chunk cs else .ok none

/-- The chunker's mutable state: position, current chunk start, the three
peekable range iterators (as their unconsumed suffixes), the wip range
lists, and the chunks emitted so far. -/
structure CkSt where
  position : Nat := 0
  chunk_start : Nat := 0
  comments_rem : List (Nat × Nat)
  strings_rem : List (Nat × Nat)
  errors_rem : List (Nat × Nat)
  wipC : List (Nat × Nat) := []
  wipS : List (Nat × Nat) := []
  wipE : List (Nat × Nat) := []
  chunks : List Chunk := []
deriving DecidableEq, Repr

/-- One iterator/wip pair of `State::collect_ranges`: move ranges whose
start lies before `position` into the wip, translated by `chunk_start`.
`.panicked` models the `assert!(range.end <= self.position)` and the
`checked_sub(..).expect("poo")` underflow. -/
def collectOne (position chunk_start : Nat) :
    List (Nat × Nat) → List (Nat × Nat) → Res (List (Nat × Nat) × List (Nat × Nat))
  | [], wip => .ok ([], wip)
  | r :: rest, wip =>
    if r.1 < position then
      if r.2 ≤ position then
        if chunk_start ≤ r.1 ∧ chunk_start ≤ r.2 then
          collectOne position chunk_start rest (wip ++ [(r.1 - chunk_start, r.2 - chunk_start)])
        else .panicked
      else .panicked
    else .ok (r :: rest, wip)

/-- `State::collect_ranges`. -/
def collect_ranges (st : CkSt) : Res CkSt :=
  match collectOne st.position st.chunk_start st.comments_rem st.wipC with
  | .ok (cr, wc) =>
    match collectOne st.position st.chunk_start st.strings_rem st.wipS with
    | .ok (sr, wsp) =>
      match collectOne st.position st.chunk_start st.errors_rem st.wipE with
      | .ok (er, we) =>
        .ok { st with comments_rem := cr, wipC := wc, strings_rem := sr,
                      wipS := wsp, errors_rem := er, wipE := we }
      | .panicked => .panicked
      | .nofuel => .nofuel
    | .panicked => .panicked
    | .nofuel => .nofuel
  | .panicked => .panicked
  | .nofuel => .nofuel

/-- `State::push_chunk`: advance past `eat_bytes`, collect the ranges now
behind the position, and emit the chunk text `[chunk_start, position)` if
non-empty (taking the wip lists); `chunk_start` moves to `position`. -/
def push_chunk (text_all : List Char) (st : CkSt) (eat_bytes : Nat) : Res CkSt :=
  let st := { st with position := st.position + eat_bytes }
  match collect_ranges st with
  | .ok st =>
    if st.position ≤ byteLen text_all then
      match sliceBytes text_all st.chunk_start st.position with
      | some chunk_text =>
        if chunk_text.isEmpty then
          .ok { st with chunk_start := st.position }
        else
          .ok { st with
            chunks := st.chunks ++ [⟨chunk_text, st.wipC, st.wipS, st.wipE⟩]
            wipC := [], wipS := [], wipE := []
            chunk_start := st.position }
      | none => .panicked
    else .panicked  -- assert!(self.position <= text_all.len())
  | .panicked => .panicked
  | .nofuel => .nofuel

/-- `State::step` for the chunker (the `chunk_offset` computation panics if
`chunk_start` has run past `position`). -/
def ck_step (text_all : List Char) (st : CkSt) (tc : Option Nat) : Res CkSt :=
  if st.chunk_start ≤ st.position then
    match tc with
    | some chunk_extra_bytes => push_chunk text_all st chunk_extra_bytes
    | none =>
      let st := { st with position := st.position + 1 }
      if st.position ≤ byteLen text_all then .ok st else .panicked
  else .panicked

/-- The anchor-scanning loop over one `Unknown` region
(`text_remaining = &text_all[self.position..range.end]`). -/
def regionGo (text_all : List Char) (range_end : Nat) : Nat → CkSt → Res CkSt
  | 0, _ => .nofuel
  | fuel + 1, st =>
    match sliceBytes text_all st.position range_end with
    | none => .panicked
    | some text_remaining =>
      match findStart chunk_start_chars text_remaining with
      | none => .ok { st with position := range_end }
      | some (off, suf) =>
        let st := { st with position := st.position + off }
        match try_chunk_at suf with
        | .ok tc =>
          match ck_step text_all st tc with
          | .ok st' => regionGo text_all range_end fuel st'
          | .panicked => .panicked
          | .nofuel => .nofuel
        | .panicked => .panicked
        | .nofuel => .nofuel

/-- The region loop of the chunker's `State::map`: only `Unknown` regions
are scanned; the position jumps to each region's start. -/
def regionsGo (text_all : List Char) : List ((Nat × Nat) × RangeKind) → CkSt → Res CkSt
  | [], st => .ok st
  | (r, kind) :: rest, st =>
    match kind with
    | .unknown =>
      match regionGo text_all r.2 (byteLen text_all + 1) { st with position := r.1 } with
      | .ok st' => regionsGo text_all rest st'
      | .panicked => .panicked
      | .nofuel => .nofuel
    | _ => regionsGo text_all rest st

/-- `chunks` (with `basic_config`): scan the unknown regions, then flush
the remaining text as a final chunk and check the final assertions. -/
def chunks (c : Chunk) : Res (List Chunk) :=
  match Chunk.ranges c with
  | .ok ranges =>
    let text_all := c.text
    let st0 : CkSt := { comments_rem := c.comments, strings_rem := c.strings,
                        errors_rem := c.errors }
    match regionsGo text_all ranges st0 with
    | .ok st =>
      if st.position ≤ byteLen text_all then
        match push_chunk text_all st (byteLen text_all - st.position) with
        | .ok st =>
          -- assert_eq!(self.position, self.chunk_wip.chunk_start) and the
          -- three emptiness assertions on the wip lists
          if st.position = st.chunk_start ∧ st.wipC.isEmpty ∧ st.wipS.isEmpty ∧
              st.wipE.isEmpty then
            .ok st.chunks
          else .panicked
        | .panicked => .panicked
        | .nofuel => .nofuel
      else .panicked  -- the final slice &text_all[self.position..]
    | .panicked => .panicked
    | .nofuel => .nofuel
  | .panicked => .panicked
  | .nofuel => .nofuel

example : chunks ⟨"ab.bdd%".data, [(6, 7)], [], []⟩ =
    .ok [⟨"ab.".data, [], [], []⟩, ⟨"bdd%".data, [(3, 4)], [], []⟩] := rfl
example : chunks ⟨"a.b.c.".data, [], [], []⟩ =
    .ok [⟨"a.".data, [], [], []⟩, ⟨"b.".data, [], [], []⟩, ⟨"c.".data, [], [], []⟩] := rfl
example : chunks ⟨"\"x . %".data, [], [], [(0, 6)]⟩ =
    .ok [⟨"\"x . %".data, [], [], [(0, 6)]⟩] := rfl

/-! ### The full default pipeline: segmenter → chunker → tokenizer → bracer -/

/-- Segment a source string and split it into chunks with the default
configuration. -/
def pipeline_chunks (s : String) : Res (List Chunk) :=
  (source_map s.data).bind chunks

/-- The single chunk of a source with no chunk boundaries (every pipeline
input considered by the claims produces exactly one chunk). -/
def pipeline_first_chunk (s : String) : Res Chunk :=
  match pipeline_chunks s with
  | .ok (c :: _) => .ok c
  | .ok [] => .panicked
  | .panicked => .panicked
  | .nofuel => .nofuel

/-- Tokenize the pipeline's first chunk with the bcts sigil table. -/
def pipeline_tokens (s : String) : Res (List Token) :=
  (pipeline_first_chunk s).bind (lex_chunk bcts_sigils)

/-- Run the bracer over the pipeline's tokens. -/
def pipeline_bracer (s : String) : Res (List Token × BraceMap) :=
  (pipeline_tokens s).bind (fun tokens =>
    match bracer tokens with
    | some m => .ok (tokens, m)
    | none => .panicked)

/-- The `dbglex` test helper: run the pipeline, consume the bracer tree and
render it with the canonical stringifier. -/
def dbglex (s : String) : Res String :=
  (pipeline_bracer s).bind (fun (tokens, m) =>
    (consume (8 * tokens.length + 64) tokens m (initIter tokens m)).map renderTrees)

example : dbglex " " = .ok "ws" := rfl
example : dbglex "a b" = .ok "a ws b" := rfl
example : dbglex "()" = .ok "( )" := rfl
example : dbglex "\x7b\x7d" = .ok "\x7b \x7d" := rfl
example : dbglex "())" = .ok "( )" := rfl
example : dbglex "(\x7d)" = .ok "( )" := rfl
example : dbglex "(()" = .ok "( ( ) )" := rfl
example : dbglex "(\x7b)" = .ok "( \x7b \x7d )" := rfl
example : dbglex ")" = .ok "" := rfl
example : dbglex "))\x7d)" = .ok "" := rfl
example : dbglex "((\x7b(" = .ok "( ( \x7b ( ) \x7d ) )" := rfl
example : dbglex "a(b)c" = .ok "a ( b ) c" := rfl
example : dbglex "a(b(c" = .ok "a ( b ( c ) )" := rfl
example : dbglex "a)b)c" = .ok "a b c" := rfl
example : dbglex "(a\x7db\x7dc)" = .ok "( a b c )" := rfl
example : dbglex "[]" = .ok "[ ]" := rfl
example : dbglex "<>" = .ok "< >" := rfl
example : dbglex "a[b]c" = .ok "a [ b ] c" := rfl
example : dbglex "a<b>c" = .ok "a < b > c" := rfl
example : dbglex "([\x7b<>\x7d])" = .ok "( [ \x7b < > \x7d ] )" := rfl
example : dbglex "\x7b(\x7d" = .ok "\x7b ( ) \x7d" := rfl
example : dbglex "\x7b[\x7d" = .ok "\x7b [ ] \x7d" := rfl
example : dbglex "\x7b<\x7d" = .ok "\x7b < > \x7d" := rfl
example : dbglex "([)" = .ok "( [ ] )" := rfl
example : dbglex "(<)" = .ok "( < > )" := rfl
example : dbglex "[<]" = .ok "[ < > ]" := rfl
example : dbglex "a)\x7d]>b" = .ok "a b" := rfl
example : dbglex "(a\x7db)" = .ok "( a b )" := rfl
example : dbglex "(a))" = .ok "( a )" := rfl
example : dbglex "(a)\x7d)" = .ok "( a )" := rfl
example : dbglex "((a)\x7d)" = .ok "( ( a ) )" := rfl

example : dbglex ")(\x7d)" = .panicked := rfl
example : dbglex ")(" = .ok ") ( )" := rfl

example : renderBracer [sigTok .parenOpen, sigTok .parenClose] = .ok "( )" := rfl
example : renderBracer [sigTok .parenOpen, sigTok .braceClose, sigTok .parenClose] =
    .ok "( )" := rfl
example : renderBracer [sigTok .parenOpen, sigTok .braceOpen, sigTok .parenClose] =
    .ok "( \x7b \x7d )" := rfl
example : renderBracer [sigTok .parenClose] = .ok "" := rfl
example : consumeBracer [sigTok .parenClose, sigTok .parenOpen, sigTok .braceClose,
    sigTok .parenClose] = .panicked := rfl
example : renderBracer [sigTok .parenClose, sigTok .parenOpen] = .ok ") ( )" := rfl

/-! ### Pre-order structure of the bracer output

A `BraceMap` built by the bracer is the flattening of a forest of *ops*:
a removed-close event, a trailing synthesised-close event (pushed into a
frame's map just before it is wrapped into a mismatched branch), or a
completed branch with its sub-ops (`errTop` marks the end-of-input unwind,
which pushes its error at the parent level just before appending the child
map).  Flattening writes a branch entry before all entries of its sub-ops,
which is exactly the pre-order convention the iterator relies on. -/

inductive BOp where
  | removedClose (i : Nat) (s : Sigil)
  | insertedTail (i open_index : Nat) (os : Sigil)
  | branch (b : Branch) (sub : List BOp) (errTop : Bool)

mutual

/-- Flatten one op into the four parallel vectors. -/
def flattenOp : BOp → BraceMap
  | .removedClose i s => ⟨[], [], [(i, s)], [((i, i + 1), s)]⟩
  | .insertedTail i open_index os =>
    ⟨[], [(i, os.close_sigil)], [], [((open_index, i), os)]⟩
  | .branch b sub errTop =>
    let F := flattenOps sub
    ⟨b :: F.branches, F.inserted_closes, F.removed_closes,
     (if errTop then [((b.real_token_range.1, b.real_token_range.2), b.open_sigil)]
      else []) ++ F.errors⟩

/-- Flatten a list of ops, in order. -/
def flattenOps : List BOp → BraceMap
  | [] => {}
  | op :: rest => (flattenOp op).append (flattenOps rest)

end

/-- Every branch's four counts equal the total number of entries its
sub-ops contribute to the corresponding vector (recursively). -/
def countsOK : List BOp → Prop
  | [] => True
  | .removedClose _ _ :: r => countsOK r
  | .insertedTail _ _ _ :: r => countsOK r
  | .branch b sub _ :: r =>
    countsOK sub ∧
    b.branches = (flattenOps sub).branches.length ∧
    b.inserted_closes = (flattenOps sub).inserted_closes.length ∧
    b.removed_closes = (flattenOps sub).removed_closes.length ∧
    b.errors = (flattenOps sub).errors.length ∧
    countsOK r

/-- Every `insertedTail` op lies directly inside a branch whose
`real_token_range.2` is the inserted close's token index and whose
`close_sigil` is the synthesised sigil; `p` is the immediately enclosing
branch (`none` at the top level, where bare tails are forbidden). -/
def tailsOK : Option Branch → List BOp → Prop
  | _, [] => True
  | p, .removedClose _ _ :: r => tailsOK p r
  | none, .insertedTail _ _ _ :: _ => False
  | some b, .insertedTail i _ os :: r =>
    i = b.real_token_range.2 ∧ os.close_sigil = b.close_sigil ∧ tailsOK (some b) r
  | p, .branch b' sub _ :: r => tailsOK (some b') sub ∧ tailsOK p r

/-- A map is *abstract*: the flattening of a counts-consistent forest with
no bare inserted tails. -/
def MapAbs (m : BraceMap) : Prop :=
  ∃ ops, m = flattenOps ops ∧ countsOK ops ∧ tailsOK none ops

/-- Bracer-state invariant: the top map and every frame map are abstract. -/
def StAbs (st : BrSt) : Prop :=
  MapAbs st.top ∧ ∀ f ∈ st.stack, MapAbs f.2.2

/-! Algebra of `BraceMap.append` and `flattenOps`. -/

theorem BraceMap.empty_append (m : BraceMap) : BraceMap.append {} m = m := by
  cases m; simp [BraceMap.append]

theorem BraceMap.append_empty (m : BraceMap) : m.append {} = m := by
  cases m; simp [BraceMap.append]

theorem BraceMap.append_assoc (a b c : BraceMap) :
    (a.append b).append c = a.append (b.append c) := by
  cases a; cases b; cases c; simp [BraceMap.append]

theorem flattenOps_append (a b : List BOp) :
    flattenOps (a ++ b) = (flattenOps a).append (flattenOps b) := by
  induction a with
  | nil => simp [flattenOps, BraceMap.empty_append]
  | cons op r ih => simp [flattenOps, ih, BraceMap.append_assoc]

theorem flattenOps_one (op : BOp) : flattenOps [op] = flattenOp op := by
  simp [flattenOps, BraceMap.append_empty]

theorem countsOK_append {a b : List BOp} (ha : countsOK a) (hb : countsOK b) :
    countsOK (a ++ b) := by
  induction a with
  | nil => simpa using hb
  | cons op r ih =>
    cases op with
    | removedClose i s =>
      simp only [countsOK] at ha
      simp only [List.cons_append, countsOK]
      exact ih ha
    | insertedTail i oi os =>
      simp only [countsOK] at ha
      simp only [List.cons_append, countsOK]
      exact ih ha
    | branch b' sub errTop =>
      simp only [countsOK] at ha
      simp only [List.cons_append, countsOK]
      exact ⟨ha.1, ha.2.1, ha.2.2.1, ha.2.2.2.1, ha.2.2.2.2.1, ih ha.2.2.2.2.2⟩

theorem tailsOK_mono {ops : List BOp} (h : tailsOK none ops) (p : Option Branch) :
    tailsOK p ops := by
  induction ops with
  | nil => cases p <;> simp [tailsOK]
  | cons op r ih =>
    cases op with
    | removedClose i s =>
      simp only [tailsOK] at h
      cases p <;> (simp only [tailsOK]; exact ih h)
    | insertedTail i oi os => exact absurd h (by simp [tailsOK])
    | branch b' sub errTop =>
      simp only [tailsOK] at h
      cases p <;> (simp only [tailsOK]; exact ⟨h.1, ih h.2⟩)

theorem tailsOK_append {p : Option Branch} {a b : List BOp}
    (ha : tailsOK p a) (hb : tailsOK p b) : tailsOK p (a ++ b) := by
  induction a with
  | nil => simpa using hb
  | cons op r ih =>
    cases op with
    | removedClose i s =>
      cases p <;>
        (simp only [tailsOK] at ha
         simp only [List.cons_append, tailsOK]
         exact ih ha)
    | insertedTail i oi os =>
      cases p with
      | none => exact absurd ha (by simp [tailsOK])
      | some b0 =>
        simp only [tailsOK] at ha
        simp only [List.cons_append, tailsOK]
        exact ⟨ha.1, ha.2.1, ih ha.2.2⟩
    | branch b' sub errTop =>
      cases p <;>
        (simp only [tailsOK] at ha
         simp only [List.cons_append, tailsOK]
         exact ⟨ha.1, ih ha.2⟩)

theorem MapAbs.empty : MapAbs ({} : BraceMap) :=
  ⟨[], by simp [flattenOps], by simp [countsOK], by simp [tailsOK]⟩

/-- Recording a removed close (`removed_closes.push` + `errors.push`)
preserves abstraction. -/
theorem MapAbs.removedPush {m : BraceMap} (h : MapAbs m) (i : Nat) (s : Sigil) :
    MapAbs { m with removed_closes := m.removed_closes ++ [(i, s)],
                    errors := m.errors ++ [((i, i + 1), s)] } := by
  obtain ⟨ops, hm, hc, ht⟩ := h
  refine ⟨ops ++ [.removedClose i s], ?_,
    countsOK_append hc (by simp [countsOK]),
    tailsOK_append ht (by simp [tailsOK])⟩
  subst hm
  simp [flattenOps_append, flattenOps_one, flattenOp, BraceMap.append]

/-- Pushing a completed branch whose counts are the child's lengths and
then appending the child map (the matched-close case) preserves
abstraction. -/
theorem MapAbs.branchPush {pm child : BraceMap} (hpm : MapAbs pm)
    (hchild : MapAbs child) (range : Nat × Nat) (os cs : Sigil) :
    MapAbs (pm.pushBranchAppend (Branch.ofMap range child os cs) child) := by
  obtain ⟨po, hpo, hpc, hpt⟩ := hpm
  obtain ⟨co, hco, hcc, hct⟩ := hchild
  subst hco
  refine ⟨po ++ [.branch (Branch.ofMap range (flattenOps co) os cs) co false], ?_, ?_, ?_⟩
  · subst hpo
    simp [flattenOps_append, flattenOps_one, flattenOp,
      BraceMap.pushBranchAppend, BraceMap.append]
  · refine countsOK_append hpc ?_
    simp [countsOK, Branch.ofMap]
    exact hcc
  · refine tailsOK_append hpt ?_
    simp [tailsOK]
    exact tailsOK_mono hct _

/-- The unwind push: branch plus a parent-level error, then the child map
(the end-of-input case; the error is *not* part of the child's counts). -/
theorem MapAbs.unwindPush {pm child : BraceMap} (hpm : MapAbs pm)
    (hchild : MapAbs child) (oi N : Nat) (os : Sigil) :
    MapAbs (({ pm with
        branches := pm.branches ++ [Branch.ofMap (oi, N) child os os.close_sigil]
        errors := pm.errors ++ [((oi, N), os)] : BraceMap }).append child) := by
  obtain ⟨po, hpo, hpc, hpt⟩ := hpm
  obtain ⟨co, hco, hcc, hct⟩ := hchild
  subst hco
  refine ⟨po ++ [.branch (Branch.ofMap (oi, N) (flattenOps co) os os.close_sigil) co true],
    ?_, ?_, ?_⟩
  · subst hpo
    simp [flattenOps_append, flattenOps_one, flattenOp, BraceMap.append, Branch.ofMap]
  · refine countsOK_append hpc ?_
    simp [countsOK, Branch.ofMap]
    exact hcc
  · refine tailsOK_append hpt ?_
    simp [tailsOK]
    exact tailsOK_mono hct _

/-- The trailing pushes of the mismatched-opener arm, applied to the popped
frame's map before it becomes a branch. -/
def mismatchMap (child : BraceMap) (oi index : Nat) (os : Sigil) : BraceMap :=
  { child with
    inserted_closes := child.inserted_closes ++ [(index, os.close_sigil)]
    errors := child.errors ++ [((oi, index), os)] }

/-- `mismatchArm`, when it succeeds, is exactly `mismatchMap` plus the
branch built from it. -/
theorem mismatchArm_eq {os : Sigil} {oi index : Nat} {m m' : BraceMap} {b : Branch}
    (h : mismatchArm os oi index m = some (m', b)) :
    m' = mismatchMap m oi index os ∧
    b = Branch.ofMap (oi, index) m' os os.close_sigil := by
  cases os <;> simp [mismatchArm, mismatchMap, Sigil.close_sigil] at h ⊢ <;>
    (obtain ⟨h1, h2⟩ := h; subst h1; subst h2; simp)

/-- The mismatched-opener push: the child receives the trailing inserted
close and error, and the branch (whose counts include them) goes to the
parent, followed by the updated child map. -/
theorem MapAbs.mismatchPush {pm child : BraceMap} (hpm : MapAbs pm)
    (hchild : MapAbs child) (oi index : Nat) (os : Sigil) :
    MapAbs (pm.pushBranchAppend
      (Branch.ofMap (oi, index) (mismatchMap child oi index os) os os.close_sigil)
      (mismatchMap child oi index os)) := by
  obtain ⟨po, hpo, hpc, hpt⟩ := hpm
  obtain ⟨co, hco, hcc, hct⟩ := hchild
  subst hco
  have hm' : mismatchMap (flattenOps co) oi index os =
      flattenOps (co ++ [.insertedTail index oi os]) := by
    simp [flattenOps_append, flattenOps_one, flattenOp, mismatchMap, BraceMap.append]
  set b := Branch.ofMap (oi, index) (mismatchMap (flattenOps co) oi index os) os
    os.close_sigil with hb
  refine ⟨po ++ [.branch b (co ++ [.insertedTail index oi os]) false], ?_, ?_, ?_⟩
  · subst hpo
    rw [flattenOps_append, flattenOps_one]
    simp only [flattenOp]
    rw [← hm']
    simp [BraceMap.pushBranchAppend, BraceMap.append, mismatchMap]
  · refine countsOK_append hpc ?_
    simp only [countsOK, and_true]
    refine ⟨countsOK_append hcc (by simp [countsOK]), ?_, ?_, ?_, ?_⟩ <;>
      simp [hb, Branch.ofMap, hm']
  · refine tailsOK_append hpt ?_
    simp only [tailsOK, and_true]
    refine tailsOK_append (tailsOK_mono hct _) ?_
    simp [tailsOK, hb, Branch.ofMap]

theorem pushToParent_abs {stack : List Frame} {top : BraceMap} {f : BraceMap → BraceMap}
    (htop : MapAbs top) (hst : ∀ g ∈ stack, MapAbs g.2.2)
    (hf : ∀ m, MapAbs m → MapAbs (f m)) :
    MapAbs (pushToParent stack top f).2 ∧
      ∀ g ∈ (pushToParent stack top f).1, MapAbs g.2.2 := by
  cases stack with
  | nil =>
    refine ⟨hf top htop, ?_⟩
    simp [pushToParent]
  | cons fr rest =>
    obtain ⟨pi, ps, pm⟩ := fr
    refine ⟨htop, ?_⟩
    intro g hg
    simp only [pushToParent, List.mem_cons] at hg
    rcases hg with h | h
    · subst h
      exact hf pm (hst (pi, ps, pm) (List.mem_cons_self _ _))
    · exact hst g (List.mem_cons_of_mem _ h)

theorem closeLoop_abs : ∀ (fuel : Nat) (stack : List Frame) (top : BraceMap)
    {index : Nat} {open_s close_s : Sigil} {out : List Frame × BraceMap},
    closeLoop index open_s close_s fuel stack top = some out →
    MapAbs top → (∀ f ∈ stack, MapAbs f.2.2) →
    MapAbs out.2 ∧ ∀ f ∈ out.1, MapAbs f.2.2 := by
  intro fuel
  induction fuel with
  | zero =>
    intro stack top index open_s close_s out h htop hst
    cases stack with
    | nil => simp [closeLoop] at h
    | cons fr rest => simp [closeLoop] at h
  | succ fuel ih =>
    intro stack top index open_s close_s out h htop hst
    cases stack with
    | nil => simp [closeLoop] at h
    | cons fr rest =>
      obtain ⟨open_index, open_sigil, brace_map⟩ := fr
      have hchild : MapAbs brace_map :=
        hst (open_index, open_sigil, brace_map) (List.mem_cons_self _ _)
      have hrest : ∀ f ∈ rest, MapAbs f.2.2 := fun f hf =>
        hst f (List.mem_cons_of_mem _ hf)
      simp only [closeLoop] at h
      by_cases heq : open_sigil = open_s
      · simp only [heq, if_pos rfl] at h
        cases h
        exact pushToParent_abs htop hrest
          (fun m hm => MapAbs.branchPush hm hchild _ _ _)
      · rw [if_neg heq] at h
        cases harm : mismatchArm open_sigil open_index index brace_map with
        | none => rw [harm] at h; cases h
        | some pr =>
          obtain ⟨m', b⟩ := pr
          rw [harm] at h
          obtain ⟨hm', hb⟩ := mismatchArm_eq harm
          subst hm'
          subst hb
          have hstep := pushToParent_abs (f := fun pm =>
              pm.pushBranchAppend
                (Branch.ofMap (open_index, index)
                  (mismatchMap brace_map open_index index open_sigil) open_sigil
                  open_sigil.close_sigil)
                (mismatchMap brace_map open_index index open_sigil))
            htop hrest
            (fun m hm => MapAbs.mismatchPush hm hchild _ _ _)
          exact ih _ _ h hstep.1 hstep.2

theorem close_brace_abs {st : BrSt} {index : Nat} {open_s close_s : Sigil} {st' : BrSt}
    (h : close_brace st index open_s close_s = some st')
    (habs : StAbs st) : StAbs st' := by
  obtain ⟨htop, hst⟩ := habs
  unfold close_brace at h
  by_cases hseen : st.stack.any (fun f => f.2.1 = open_s)
  · rw [if_pos hseen] at h
    cases hcl : closeLoop index open_s close_s (st.stack.length + 1) st.stack st.top with
    | none => rw [hcl] at h; cases h
    | some out =>
      rw [hcl] at h
      obtain ⟨stack', top'⟩ := out
      cases h
      exact closeLoop_abs _ _ _ hcl htop hst
  · rw [if_neg hseen] at h
    have hstep := pushToParent_abs (f := fun pm =>
        { pm with removed_closes := pm.removed_closes ++ [(index, close_s)]
                  errors := pm.errors ++ [((index, index + 1), close_s)] })
      htop hst (fun m hm => MapAbs.removedPush hm index close_s)
    cases h
    exact ⟨hstep.1, hstep.2⟩

theorem processTok_abs {st : BrSt} {index : Nat} {k : TokenKind} {st' : BrSt}
    (h : processTok st index k = some st') (habs : StAbs st) : StAbs st' := by
  obtain ⟨htop, hst⟩ := habs
  cases k with
  | sigil s =>
    cases s with
    | parenOpen | braceOpen | bracketOpen | angleOpen =>
      cases h
      refine ⟨htop, ?_⟩
      intro f hf
      simp only [List.mem_cons] at hf
      rcases hf with h | h
      · subst h; exact MapAbs.empty
      · exact hst f h
    | parenClose | braceClose | bracketClose | angleClose =>
      exact close_brace_abs h ⟨htop, hst⟩
    | dot | comma | semicolon | colonDash => cases h; exact ⟨htop, hst⟩
  | word => cases h; exact ⟨htop, hst⟩
  | string => cases h; exact ⟨htop, hst⟩
  | whitespace => cases h; exact ⟨htop, hst⟩
  | comment => cases h; exact ⟨htop, hst⟩
  | error => cases h; exact ⟨htop, hst⟩

theorem processFrom_abs : ∀ (ks : List TokenKind) (i : Nat) {st st' : BrSt},
    processFrom i ks st = some st' → StAbs st → StAbs st' := by
  intro ks
  induction ks with
  | nil => intro i st st' h habs; cases h; exact habs
  | cons k rest ih =>
    intro i st st' h habs
    simp only [processFrom] at h
    cases htk : processTok st i k with
    | none => rw [htk] at h; cases h
    | some st1 =>
      rw [htk] at h
      exact ih _ h (processTok_abs htk habs)

theorem unwind_abs : ∀ (fuel : Nat) (stack : List Frame) (top : BraceMap)
    {N : Nat} {m : BraceMap}, unwind N fuel stack top = some m →
    MapAbs top → (∀ f ∈ stack, MapAbs f.2.2) → MapAbs m := by
  intro fuel
  induction fuel with
  | zero =>
    intro stack top N m h htop hst
    cases stack with
    | nil => cases h; exact htop
    | cons fr rest => simp [unwind] at h
  | succ fuel ih =>
    intro stack top N m h htop hst
    cases stack with
    | nil => cases h; exact htop
    | cons fr rest =>
      obtain ⟨open_index, open_sigil, brace_map⟩ := fr
      have hchild : MapAbs brace_map :=
        hst (open_index, open_sigil, brace_map) (List.mem_cons_self _ _)
      have hrest : ∀ f ∈ rest, MapAbs f.2.2 := fun f hf =>
        hst f (List.mem_cons_of_mem _ hf)
      simp only [unwind] at h
      have hstep := pushToParent_abs (f := fun pm =>
          ({ pm with
              branches := pm.branches ++
                [Branch.ofMap (open_index, N) brace_map open_sigil
                  open_sigil.close_sigil]
              errors := pm.errors ++ [((open_index, N), open_sigil)] : BraceMap }).append
            brace_map)
        htop hrest (fun m hm => MapAbs.unwindPush hm hchild _ _ _)
      exact ih _ _ h hstep.1 hstep.2

/-- The bracer's output is always an abstract map: the flattening of a
counts-consistent pre-order forest. -/
theorem bracer_abs {tokens : List Token} {m : BraceMap}
    (h : bracer tokens = some m) : MapAbs m := by
  unfold bracer at h
  cases hp : processFrom 0 (tokens.map Token.kind) ⟨[], {}⟩ with
  | none => rw [hp] at h; cases h
  | some st =>
    rw [hp, Option.some_bind] at h
    have habs : StAbs st := processFrom_abs _ _ hp ⟨MapAbs.empty, by simp⟩
    exact unwind_abs _ _ _ h habs.1 habs.2

/-- Sum of `b.branches + 1` over the top-level branch ops. -/
def topSumBranches : List BOp → Nat
  | [] => 0
  | .branch b _ _ :: r => b.branches + 1 + topSumBranches r
  | _ :: r => topSumBranches r

/-- Sum of `b.inserted_closes` over top-level branches plus the top-level
inserted-close entries. -/
def topSumInserted : List BOp → Nat
  | [] => 0
  | .branch b _ _ :: r => b.inserted_closes + topSumInserted r
  | .insertedTail _ _ _ :: r => 1 + topSumInserted r
  | .removedClose _ _ :: r => topSumInserted r

/-- Sum of `b.removed_closes` over top-level branches plus the top-level
removed-close entries. -/
def topSumRemoved : List BOp → Nat
  | [] => 0
  | .branch b _ _ :: r => b.removed_closes + topSumRemoved r
  | .insertedTail _ _ _ :: r => topSumRemoved r
  | .removedClose _ _ :: r => 1 + topSumRemoved r

/-- Sum of `b.errors` (plus one for an unwind-level error) over top-level
branches plus the top-level error entries. -/
def topSumErrors : List BOp → Nat
  | [] => 0
  | .branch b _ errTop :: r =>
    b.errors + (if errTop then 1 else 0) + topSumErrors r
  | .insertedTail _ _ _ :: r => 1 + topSumErrors r
  | .removedClose _ _ :: r => 1 + topSumErrors r

theorem flatten_length_branches {ops : List BOp} (h : countsOK ops) :
    (flattenOps ops).branches.length = topSumBranches ops := by
  induction ops with
  | nil => simp [flattenOps, topSumBranches]
  | cons op r ih =>
    cases op with
    | removedClose i s =>
      simp only [countsOK] at h
      simp [flattenOps, flattenOp, BraceMap.append, topSumBranches, ih h]
    | insertedTail i oi os =>
      simp only [countsOK] at h
      simp [flattenOps, flattenOp, BraceMap.append, topSumBranches, ih h]
    | branch b sub errTop =>
      simp only [countsOK] at h
      simp [flattenOps, flattenOp, BraceMap.append, topSumBranches,
        ih h.2.2.2.2.2, ← h.2.1]
      omega

theorem flatten_length_inserted {ops : List BOp} (h : countsOK ops) :
    (flattenOps ops).inserted_closes.length = topSumInserted ops := by
  induction ops with
  | nil => simp [flattenOps, topSumInserted]
  | cons op r ih =>
    cases op with
    | removedClose i s =>
      simp only [countsOK] at h
      simp [flattenOps, flattenOp, BraceMap.append, topSumInserted, ih h]
    | insertedTail i oi os =>
      simp only [countsOK] at h
      simp [flattenOps, flattenOp, BraceMap.append, topSumInserted, ih h]
      omega
    | branch b sub errTop =>
      simp only [countsOK] at h
      simp [flattenOps, flattenOp, BraceMap.append, topSumInserted,
        ih h.2.2.2.2.2, ← h.2.2.1]

theorem flatten_length_removed {ops : List BOp} (h : countsOK ops) :
    (flattenOps ops).removed_closes.length = topSumRemoved ops := by
  induction ops with
  | nil => simp [flattenOps, topSumRemoved]
  | cons op r ih =>
    cases op with
    | removedClose i s =>
      simp only [countsOK] at h
      simp [flattenOps, flattenOp, BraceMap.append, topSumRemoved, ih h]
      omega
    | insertedTail i oi os =>
      simp only [countsOK] at h
      simp [flattenOps, flattenOp, BraceMap.append, topSumRemoved, ih h]
    | branch b sub errTop =>
      simp only [countsOK] at h
      simp [flattenOps, flattenOp, BraceMap.append, topSumRemoved,
        ih h.2.2.2.2.2, ← h.2.2.2.1]

theorem flatten_length_errors {ops : List BOp} (h : countsOK ops) :
    (flattenOps ops).errors.length = topSumErrors ops := by
  induction ops with
  | nil => simp [flattenOps, topSumErrors]
  | cons op r ih =>
    cases op with
    | removedClose i s =>
      simp only [countsOK] at h
      simp [flattenOps, flattenOp, BraceMap.append, topSumErrors, ih h]
      omega
    | insertedTail i oi os =>
      simp only [countsOK] at h
      simp [flattenOps, flattenOp, BraceMap.append, topSumErrors, ih h]
      omega
    | branch b sub errTop =>
      simp only [countsOK] at h
      cases errTop <;>
        (simp [flattenOps, flattenOp, BraceMap.append, topSumErrors,
          ih h.2.2.2.2.2, ← h.2.2.2.2.1]
         try omega)

/-- Every inserted-close entry in a tail-consistent flattening is owned by
a branch of the flattening whose token range ends at the entry's index
(or matches the enclosing branch `p`). -/
theorem tails_flatten (ops : List BOp) (p : Option Branch) (h : tailsOK p ops) :
    ∀ e ∈ (flattenOps ops).inserted_closes,
      (∃ b ∈ (flattenOps ops).branches,
        b.real_token_range.2 = e.1 ∧ b.close_sigil = e.2) ∨
      (∃ b0, p = some b0 ∧ b0.real_token_range.2 = e.1 ∧ b0.close_sigil = e.2) := by
  match ops with
  | [] =>
    intro e he
    simp [flattenOps] at he
  | .removedClose i s :: r =>
    intro e he
    have hr : tailsOK p r := by
      cases p <;> (simp only [tailsOK] at h; exact h)
    have hins : (flattenOps (.removedClose i s :: r)).inserted_closes =
        (flattenOps r).inserted_closes := by
      simp [flattenOps, flattenOp, BraceMap.append]
    have hbr : (flattenOps (.removedClose i s :: r)).branches =
        (flattenOps r).branches := by
      simp [flattenOps, flattenOp, BraceMap.append]
    rw [hins] at he
    rcases tails_flatten r p hr e he with ⟨b, hb, hp⟩ | hright
    · exact Or.inl ⟨b, by rw [hbr]; exact hb, hp⟩
    · exact Or.inr hright
  | .insertedTail i oi os :: r =>
    intro e he
    cases p with
    | none => exact absurd h (by simp [tailsOK])
    | some b0 =>
      simp only [tailsOK] at h
      obtain ⟨hi, hcs, hr⟩ := h
      have hins : (flattenOps (.insertedTail i oi os :: r)).inserted_closes =
          (i, os.close_sigil) :: (flattenOps r).inserted_closes := by
        simp [flattenOps, flattenOp, BraceMap.append]
      have hbr : (flattenOps (.insertedTail i oi os :: r)).branches =
          (flattenOps r).branches := by
        simp [flattenOps, flattenOp, BraceMap.append]
      rw [hins] at he
      rcases List.mem_cons.mp he with hhead | htail
      · subst hhead
        exact Or.inr ⟨b0, rfl, hi.symm, hcs.symm⟩
      · rcases tails_flatten r (some b0) hr e htail with ⟨b, hb, hp⟩ | hright
        · exact Or.inl ⟨b, by rw [hbr]; exact hb, hp⟩
        · exact Or.inr hright
  | .branch b' sub errTop :: r =>
    intro e he
    have hsub : tailsOK (some b') sub := by
      cases p <;> (simp only [tailsOK] at h; exact h.1)
    have hr : tailsOK p r := by
      cases p <;> (simp only [tailsOK] at h; exact h.2)
    have hins : (flattenOps (.branch b' sub errTop :: r)).inserted_closes =
        (flattenOps sub).inserted_closes ++ (flattenOps r).inserted_closes := by
      simp [flattenOps, flattenOp, BraceMap.append]
    have hbr : (flattenOps (.branch b' sub errTop :: r)).branches =
        b' :: ((flattenOps sub).branches ++ (flattenOps r).branches) := by
      simp [flattenOps, flattenOp, BraceMap.append]
    rw [hins] at he
    rcases List.mem_append.mp he with hin | htail
    · rcases tails_flatten sub (some b') hsub e hin with ⟨b, hb, hp⟩ | ⟨b0, hb0, hp⟩
      · refine Or.inl ⟨b, ?_, hp⟩
        rw [hbr]
        exact List.mem_cons_of_mem _ (List.mem_append_left _ hb)
      · cases hb0
        refine Or.inl ⟨b', ?_, hp⟩
        rw [hbr]
        exact List.mem_cons_self _ _
    · rcases tails_flatten r p hr e htail with ⟨b, hb, hp⟩ | hright
      · refine Or.inl ⟨b, ?_, hp⟩
        rw [hbr]
        exact List.mem_cons_of_mem _ (List.mem_append_right _ hb)
      · exact Or.inr hright
termination_by sizeOf ops

/-! ### Lemmas about the text model (for the segmenter proofs) -/

theorem utf8Len_pos (c : Char) : 1 ≤ utf8Len c := by
  unfold utf8Len
  split <;> [omega; split <;> [omega; split <;> omega]]

theorem byteLen_nil : byteLen [] = 0 := rfl

theorem byteLen_cons (c : Char) (cs : List Char) :
    byteLen (c :: cs) = utf8Len c + byteLen cs := by
  simp [byteLen]

theorem byteLen_append (a b : List Char) :
    byteLen (a ++ b) = byteLen a + byteLen b := by
  induction a with
  | nil => simp [byteLen]
  | cons c r ih => simp [byteLen_cons, ih]; omega

theorem byteLen_eq_zero {cs : List Char} (h : byteLen cs = 0) : cs = [] := by
  cases cs with
  | nil => rfl
  | cons c r =>
    rw [byteLen_cons] at h
    have := utf8Len_pos c
    omega

theorem length_le_byteLen (cs : List Char) : cs.length ≤ byteLen cs := by
  induction cs with
  | nil => simp [byteLen]
  | cons c r ih =>
    rw [byteLen_cons]
    have := utf8Len_pos c
    simp only [List.length_cons]
    omega

theorem isCharBoundary_append (pre suf : List Char) :
    IsCharBoundary (pre ++ suf) (byteLen pre) := ⟨pre, suf, rfl, rfl⟩

/-- Dropping exactly the byte length of a prefix yields the suffix. -/
theorem dropBytes_append (a b : List Char) :
    dropBytes (a ++ b) (byteLen a) = some b := by
  induction a with
  | nil => simp [dropBytes, byteLen]
  | cons c r ih =>
    have hc := utf8Len_pos c
    rw [byteLen_cons]
    cases hn : utf8Len c + byteLen r with
    | zero => omega
    | succ n =>
      simp only [List.cons_append, dropBytes]
      rw [if_pos (by omega)]
      have : n + 1 - utf8Len c = byteLen r := by omega
      rw [this]
      exact ih

/-- Taking exactly the byte length of a prefix yields the prefix. -/
theorem takeBytes_append (a b : List Char) :
    takeBytes (a ++ b) (byteLen a) = some a := by
  induction a with
  | nil => simp [takeBytes, byteLen]
  | cons c r ih =>
    have hc := utf8Len_pos c
    rw [byteLen_cons]
    cases hn : utf8Len c + byteLen r with
    | zero => omega
    | succ n =>
      simp only [List.cons_append, takeBytes]
      rw [if_pos (by omega)]
      have : n + 1 - utf8Len c = byteLen r := by omega
      rw [this, List.append_eq, ih]
      rfl

theorem dropBytes_length_lt {cs r : List Char} {n : Nat} (hn : 1 ≤ n)
    (h : dropBytes cs n = some r) : r.length < cs.length := by
  induction cs generalizing n with
  | nil =>
    cases n with
    | zero => omega
    | succ k => simp [dropBytes] at h
  | cons c rest ih =>
    cases n with
    | zero => omega
    | succ k =>
      simp only [dropBytes] at h
      by_cases hc : utf8Len c ≤ k + 1
      · rw [if_pos hc] at h
        cases hrem : k + 1 - utf8Len c with
        | zero =>
          rw [hrem] at h
          simp only [dropBytes] at h
          cases h
          simp
        | succ j =>
          rw [hrem] at h
          have := ih (n := j + 1) (by omega) h
          simp only [List.length_cons]
          omega
      · rw [if_neg hc] at h
        cases h

/-- `findStart` splits the text at the first set character. -/
theorem findStart_spec {set cs : List Char} {off : Nat} {suf : List Char}
    (h : findStart set cs = some (off, suf)) :
    ∃ pre1, cs = pre1 ++ suf ∧ byteLen pre1 = off ∧
      ∃ c rest, suf = c :: rest ∧ c ∈ set := by
  induction cs generalizing off with
  | nil => simp [findStart] at h
  | cons c r ih =>
    simp only [findStart] at h
    by_cases hc : set.contains c
    · rw [if_pos hc] at h
      cases h
      exact ⟨[], rfl, rfl, c, r, rfl, by simpa using hc⟩
    · rw [if_neg hc] at h
      cases hf : findStart set r with
      | none => rw [hf] at h; cases h
      | some pr =>
        obtain ⟨off', suf'⟩ := pr
        rw [hf] at h
        cases h
        obtain ⟨pre1, hsplit, hlen, hc1⟩ := ih hf
        exact ⟨c :: pre1, by simp [hsplit], by simp [byteLen_cons, hlen], hc1⟩

/-- `memchrChar` splits the text at the first occurrence of the needle. -/
theorem memchrChar_spec {t : Char} {cs : List Char} {q : Nat}
    (h : memchrChar t cs = some q) :
    ∃ c1 c2, cs = c1 ++ t :: c2 ∧ byteLen c1 = q := by
  unfold memchrChar at h
  cases hf : findStart [t] cs with
  | none => rw [hf] at h; cases h
  | some pr =>
    obtain ⟨off, suf⟩ := pr
    rw [hf] at h
    cases h
    obtain ⟨pre1, hsplit, hlen, c, rest, hsuf, hcset⟩ := findStart_spec hf
    simp only [List.mem_singleton] at hcset
    subst hcset
    exact ⟨pre1, rest, by rw [hsplit, hsuf], hlen⟩

/-- A `matchIndices2` hit splits the text at the two-character pattern. -/
theorem matchIndices2_spec {a b : Char} {cs : List Char} {j : Nat}
    (h : j ∈ matchIndices2 a b cs) :
    ∃ c1 c2, cs = c1 ++ a :: b :: c2 ∧ byteLen c1 = j := by
  induction cs generalizing j with
  | nil => simp [matchIndices2] at h
  | cons c r ih =>
    cases r with
    | nil => simp [matchIndices2] at h
    | cons c2 rr =>
      simp only [matchIndices2, List.mem_append, List.mem_map] at h
      rcases h with h0 | ⟨j', hj', rfl⟩
      · by_cases hab : c = a ∧ c2 = b
        · rw [if_pos hab] at h0
          simp only [List.mem_singleton] at h0
          subst h0
          exact ⟨[], rr, by rw [hab.1, hab.2]; simp, rfl⟩
        · rw [if_neg hab] at h0
          simp at h0
      · obtain ⟨c1, cc2, hsplit, hlen⟩ := ih hj'
        exact ⟨c :: c1, cc2, by simp [hsplit], by simp [byteLen_cons, hlen]⟩

theorem mergePairs_mem {fuel : Nat} {xs ys : List (Nat × CKind)} {x : Nat × CKind}
    (h : x ∈ mergePairs fuel xs ys) : x ∈ xs ∨ x ∈ ys := by
  induction fuel generalizing xs ys with
  | zero =>
    simp only [mergePairs, List.mem_append] at h
    exact h
  | succ fuel ih =>
    cases xs with
    | nil => exact Or.inr (by simpa [mergePairs] using h)
    | cons a as =>
      cases ys with
      | nil => exact Or.inl (by simpa [mergePairs] using h)
      | cons b bs =>
        simp only [mergePairs] at h
        by_cases hle : ckindLe a b
        · rw [if_pos hle] at h
          rcases List.mem_cons.mp h with rfl | h
          · exact Or.inl (List.mem_cons_self _ _)
          · rcases ih h with h | h
            · exact Or.inl (List.mem_cons_of_mem _ h)
            · exact Or.inr h
        · rw [if_neg hle] at h
          rcases List.mem_cons.mp h with rfl | h
          · exact Or.inr (List.mem_cons_self _ _)
          · rcases ih h with h | h
            · exact Or.inl h
            · exact Or.inr (List.mem_cons_of_mem _ h)

theorem removeOverlaps_mem {p : Option Nat} {items : List (Nat × CKind)}
    {x : Nat × CKind} (h : x ∈ removeOverlaps p items) : x ∈ items := by
  induction items generalizing p with
  | nil => simp [removeOverlaps] at h
  | cons y r ih =>
    cases p with
    | none =>
      simp only [removeOverlaps] at h
      rcases List.mem_cons.mp h with rfl | h
      · exact List.mem_cons_self _ _
      · exact List.mem_cons_of_mem _ (ih h)
    | some pi =>
      simp only [removeOverlaps] at h
      by_cases hov : y.1 = pi + 1
      · rw [if_pos hov] at h
        exact List.mem_cons_of_mem _ (ih h)
      · rw [if_neg hov] at h
        rcases List.mem_cons.mp h with rfl | h
        · exact List.mem_cons_self _ _
        · exact List.mem_cons_of_mem _ (ih h)

/-- The nested-comment stack loop neither panics nor runs dry once the
stack is non-empty. -/
theorem commentLoop_total : ∀ (items : List (Nat × CKind)) (st : List Nat),
    st ≠ [] → ∃ o, commentLoop items st = .ok o := by
  intro items
  induction items with
  | nil =>
    intro st hst
    cases st with
    | nil => exact absurd rfl hst
    | cons a as => exact ⟨none, rfl⟩
  | cons x r ih =>
    intro st hst
    obtain ⟨i, k⟩ := x
    cases k with
    | copen => exact ih (i :: st) (by simp)
    | cclose =>
      cases st with
      | nil => exact absurd rfl hst
      | cons a as =>
        cases as with
        | nil => exact ⟨some i, rfl⟩
        | cons b bs => exact ih (b :: bs) (by simp)

/-- When the loop returns a close index, that index is a close item. -/
theorem commentLoop_ret : ∀ (items : List (Nat × CKind)) (st : List Nat) {i : Nat},
    commentLoop items st = .ok (some i) → (i, CKind.cclose) ∈ items := by
  intro items
  induction items with
  | nil =>
    intro st i h
    cases st with
    | nil => simp [commentLoop] at h
    | cons a as => simp [commentLoop] at h
  | cons x r ih =>
    intro st i h
    obtain ⟨j, k⟩ := x
    cases k with
    | copen => exact List.mem_cons_of_mem _ (ih _ h)
    | cclose =>
      cases st with
      | nil => simp [commentLoop] at h
      | cons a as =>
        cases as with
        | nil =>
          simp only [commentLoop, Res.ok.injEq, Option.some.injEq] at h
          subst h
          exact List.mem_cons_self _ _
        | cons b bs => exact List.mem_cons_of_mem _ (ih _ h)

/-- The byte count carried by a parse result. -/
def advOf : Except Nat Nat → Nat
  | .ok n => n
  | .error n => n

/-- A parse result's byte count is positive and splits the suffix on a
character boundary. -/
def ParseAdv (suf : List Char) (n : Nat) : Prop :=
  1 ≤ n ∧ ∃ c1 c2, suf = c1 ++ c2 ∧ byteLen c1 = n

theorem parse_nested_comment_spec {r : List Char} :
    ∃ o, parse_nested_comment ('/' :: '*' :: r) = .ok o ∧
      ∀ e, o = some e → ParseAdv ('/' :: '*' :: r) (advOf e) := by
  have hopens : matchIndices2 '/' '*' ('/' :: '*' :: r) =
      0 :: (matchIndices2 '/' '*' ('*' :: r)).map (utf8Len '/' + ·) := by
    simp [matchIndices2]
  have hcloses : matchIndices2 '*' '/' ('/' :: '*' :: r) =
      (matchIndices2 '*' '/' ('*' :: r)).map (utf8Len '/' + ·) := by
    simp [matchIndices2]
  -- the merged, overlap-cleaned brace list starts with the opener at 0
  have hmerge : ∀ ys : List (Nat × CKind), (∀ y ∈ ys, 1 ≤ y.1) →
      ∀ fuel xs, ∃ t, mergePairs (fuel + 1) ((0, CKind.copen) :: xs) ys =
        (0, CKind.copen) :: t := by
    intro ys hys fuel xs
    cases ys with
    | nil => exact ⟨xs, by simp [mergePairs]⟩
    | cons y ys' =>
      have h1 : 1 ≤ y.1 := hys y (List.mem_cons_self _ _)
      have hc : ckindLe (0, CKind.copen) y = true := by
        simp only [ckindLe, Bool.or_eq_true, decide_eq_true_eq]
        left
        omega
      exact ⟨mergePairs fuel xs (y :: ys'), by simp only [mergePairs, hc, if_true]⟩
  have hys : ∀ y ∈ ((matchIndices2 '*' '/' ('*' :: r)).map (utf8Len '/' + ·)).map
      (fun i => (i, CKind.cclose)), 1 ≤ y.1 := by
    intro y hy
    simp only [List.mem_map] at hy
    obtain ⟨j, hj, rfl⟩ := hy
    obtain ⟨a, _, rfl⟩ := hj
    have h1 : utf8Len '/' = 1 := rfl
    simp only [h1]
    omega
  unfold parse_nested_comment
  simp only [hopens, hcloses, List.map_cons]
  obtain ⟨t, hmg⟩ := hmerge _ hys _ _
  rw [hmg]
  simp only [removeOverlaps]
  obtain ⟨o, ho⟩ := commentLoop_total (removeOverlaps (some 0) t) [0] (by simp)
  have hcl : commentLoop ((0, CKind.copen) :: removeOverlaps (some 0) t) [] =
      commentLoop (removeOverlaps (some 0) t) [0] := rfl
  rw [hcl, ho]
  cases o with
  | none =>
    refine ⟨some (.error (byteLen ('/' :: '*' :: r))), rfl, ?_⟩
    intro e he
    cases he
    refine ⟨?_, '/' :: '*' :: r, [], by simp, rfl⟩
    simp only [advOf, byteLen_cons]
    have := utf8Len_pos '/'
    omega
  | some i =>
    refine ⟨some (.ok (i + 2)), rfl, ?_⟩
    intro e he
    cases he
    have h2 : (i, CKind.cclose) ∈ t :=
      removeOverlaps_mem (commentLoop_ret _ _ ho)
    have h3 : (i, CKind.cclose) ∈ (0, CKind.copen) :: t :=
      List.mem_cons_of_mem _ h2
    rw [← hmg] at h3
    have h4 := mergePairs_mem h3
    have hi : i ∈ matchIndices2 '*' '/' ('/' :: '*' :: r) := by
      rcases h4 with h | h
      · rcases List.mem_cons.mp h with h | h
        · exact absurd h (by simp)
        · simp only [List.mem_map] at h
          obtain ⟨j, _, hj⟩ := h
          exact absurd hj (by simp)
      · simp only [List.mem_map] at h
        obtain ⟨j, hj, hj2⟩ := h
        obtain ⟨a, ha, hfa⟩ := hj
        have hji : j = i := by simpa using congrArg Prod.fst hj2
        rw [hcloses]
        subst hji
        exact List.mem_map.mpr ⟨a, ha, hfa⟩
    obtain ⟨c1, c2, hsplit, hlen⟩ := matchIndices2_spec hi
    refine ⟨by simp [advOf], c1 ++ ['*', '/'], c2, by simp [hsplit], ?_⟩
    rw [byteLen_append, hlen]
    have h2b : byteLen ['*', '/'] = 2 := rfl
    simp only [advOf, h2b]

/-- A `%` comment always parses (to the newline or to the end of the text)
and its advancement splits the suffix. -/
theorem bpc_percent_spec {r : List Char} :
    ∃ e, basic_parse_comment ('%' :: r) = .ok (some e) ∧
      ParseAdv ('%' :: r) (advOf e) := by
  cases hm : memchrChar '\n' ('%' :: r) with
  | some q =>
    refine ⟨.ok q, by simp [basic_parse_comment, hm], ?_⟩
    obtain ⟨c1, c2, hsplit, hlen⟩ := memchrChar_spec hm
    refine ⟨?_, c1, '\n' :: c2, hsplit, hlen⟩
    cases c1 with
    | nil =>
      exfalso
      have : '%' = '\n' := by simpa using congrArg (fun l => l.head?) hsplit
      exact absurd this (by decide)
    | cons a c1' =>
      rw [byteLen_cons] at hlen
      have := utf8Len_pos a
      simp only [advOf]
      omega
  | none =>
    refine ⟨.ok (byteLen ('%' :: r)), by simp [basic_parse_comment, hm], ?_⟩
    refine ⟨?_, '%' :: r, [], by simp, rfl⟩
    simp only [advOf, byteLen_cons]
    have := utf8Len_pos '%'
    omega

/-- A `/`-headed suffix never makes `basic_parse_comment` fail, and when a
comment is recognised its advancement splits the suffix. -/
theorem bpc_slash_spec {r : List Char} :
    ∃ o, basic_parse_comment ('/' :: r) = .ok o ∧
      ∀ e, o = some e → ParseAdv ('/' :: r) (advOf e) := by
  cases r with
  | nil =>
    exact ⟨none, by simp [basic_parse_comment], by intro e he; cases he⟩
  | cons c2 rr =>
    by_cases h2 : c2 = '*'
    · subst h2
      obtain ⟨o, ho, hadv⟩ := parse_nested_comment_spec (r := rr)
      refine ⟨o, ?_, hadv⟩
      have hred : basic_parse_comment ('/' :: '*' :: rr) =
          parse_nested_comment ('/' :: '*' :: rr) := by
        simp [basic_parse_comment]
      rw [hred]
      exact ho
    · exact ⟨none, by simp [basic_parse_comment, h2], by intro e he; cases he⟩

/-- A `"` string always parses (to the closing quote or, unterminated, to
the end of the text) and its advancement splits the suffix. -/
theorem bps_quote_spec {r : List Char} :
    ∃ e, basic_parse_string ('"' :: r) = .ok (some e) ∧
      ParseAdv ('"' :: r) (advOf e) := by
  cases hm : memchrChar '"' r with
  | some q =>
    refine ⟨.ok (q + 2), by simp [basic_parse_string, hm], ?_⟩
    obtain ⟨c1, c2, hsplit, hlen⟩ := memchrChar_spec hm
    refine ⟨by simp [advOf], '"' :: c1 ++ ['"'], c2, by simp [hsplit], ?_⟩
    have h1 : utf8Len '"' = 1 := rfl
    simp only [advOf, List.cons_append, byteLen_cons, byteLen_append, hlen, h1,
      byteLen_nil]
    omega
  | none =>
    refine ⟨.error (byteLen ('"' :: r)), by simp [basic_parse_string, hm], ?_⟩
    refine ⟨?_, '"' :: r, [], by simp, rfl⟩
    simp only [advOf, byteLen_cons]
    have := utf8Len_pos '"'
    omega

/-- Well-formedness of one of the segmenter's range lists relative to the
text `cs` and the current byte position `pos`: every range is nonempty,
ends at or before `pos`, has both endpoints on character boundaries, and
consecutive ranges are sorted with no overlap. -/
def RangesOK (cs : List Char) (pos : Nat) (l : List (Nat × Nat)) : Prop :=
  (∀ r ∈ l, r.1 < r.2 ∧ r.2 ≤ pos ∧
    IsCharBoundary cs r.1 ∧ IsCharBoundary cs r.2) ∧
  l.Pairwise (fun r r2 => r.2 ≤ r2.1)

/-- Every range of the first list is disjoint from every range of the
second. -/
def RangesDisj (l1 l2 : List (Nat × Nat)) : Prop :=
  ∀ r ∈ l1, ∀ r2 ∈ l2, r.2 ≤ r2.1 ∨ r2.2 ≤ r.1

/-- The segmenter invariant: the three range lists are each well-formed up
to the current position and pairwise disjoint across lists. -/
def WipOK (cs : List Char) (pos : Nat) (w : SegWip) : Prop :=
  RangesOK cs pos w.comments ∧ RangesOK cs pos w.strings ∧
  RangesOK cs pos w.errors ∧
  RangesDisj w.comments w.strings ∧ RangesDisj w.comments w.errors ∧
  RangesDisj w.strings w.errors

theorem RangesOK.monoR {cs : List Char} {pos pos2 : Nat} {l : List (Nat × Nat)}
    (h : RangesOK cs pos l) (hle : pos ≤ pos2) : RangesOK cs pos2 l := by
  refine ⟨fun r hr => ?_, h.2⟩
  obtain ⟨h1, h2, h3, h4⟩ := h.1 r hr
  exact ⟨h1, le_trans h2 hle, h3, h4⟩

theorem RangesOK.bounded {cs : List Char} {pos p : Nat} {l : List (Nat × Nat)}
    (h : RangesOK cs pos l) (hp : pos ≤ p) : ∀ r ∈ l, r.2 ≤ p :=
  fun r hr => le_trans (h.1 r hr).2.1 hp

theorem RangesOK.push {cs : List Char} {pos p n : Nat} {l : List (Nat × Nat)}
    (h : RangesOK cs pos l) (hp : pos ≤ p) (hn : 1 ≤ n)
    (hb1 : IsCharBoundary cs p) (hb2 : IsCharBoundary cs (p + n)) :
    RangesOK cs (p + n) (l ++ [(p, p + n)]) := by
  constructor
  · intro r hr
    rcases List.mem_append.mp hr with hm | hm
    · obtain ⟨h1, h2, h3, h4⟩ := h.1 r hm
      exact ⟨h1, by omega, h3, h4⟩
    · simp only [List.mem_singleton] at hm
      subst hm
      exact ⟨by omega, le_refl _, hb1, hb2⟩
  · rw [List.pairwise_append]
    refine ⟨h.2, List.pairwise_singleton _ _, ?_⟩
    intro r hrm r2 hr2
    simp only [List.mem_singleton] at hr2
    subst hr2
    exact le_trans (h.1 r hrm).2.1 hp

theorem RangesDisj.pushL {l1 l2 : List (Nat × Nat)} {p q : Nat}
    (h : RangesDisj l1 l2) (h2 : ∀ r ∈ l2, r.2 ≤ p) :
    RangesDisj (l1 ++ [(p, q)]) l2 := by
  intro r hr r2 hr2
  rcases List.mem_append.mp hr with hm | hm
  · exact h r hm r2 hr2
  · simp only [List.mem_singleton] at hm
    subst hm
    exact Or.inr (h2 r2 hr2)

theorem RangesDisj.pushR {l1 l2 : List (Nat × Nat)} {p q : Nat}
    (h : RangesDisj l1 l2) (h1 : ∀ r ∈ l1, r.2 ≤ p) :
    RangesDisj l1 (l2 ++ [(p, q)]) := by
  intro r hr r2 hr2
  rcases List.mem_append.mp hr2 with hm | hm
  · exact h r hr r2 hm
  · simp only [List.mem_singleton] at hm
    subst hm
    exact Or.inl (h1 r hr)

theorem WipOK.monoW {cs : List Char} {pos pos2 : Nat} {w : SegWip}
    (h : WipOK cs pos w) (hle : pos ≤ pos2) : WipOK cs pos2 w :=
  ⟨h.1.monoR hle, h.2.1.monoR hle, h.2.2.1.monoR hle,
   h.2.2.2.1, h.2.2.2.2.1, h.2.2.2.2.2⟩

theorem WipOK.pushComment {cs : List Char} {pos p n : Nat} {w : SegWip}
    (h : WipOK cs pos w) (hp : pos ≤ p) (hn : 1 ≤ n)
    (hb1 : IsCharBoundary cs p) (hb2 : IsCharBoundary cs (p + n)) :
    WipOK cs (p + n) { w with comments := w.comments ++ [(p, p + n)] } :=
  ⟨h.1.push hp hn hb1 hb2, h.2.1.monoR (by omega), h.2.2.1.monoR (by omega),
   h.2.2.2.1.pushL (h.2.1.bounded hp), h.2.2.2.2.1.pushL (h.2.2.1.bounded hp),
   h.2.2.2.2.2⟩

theorem WipOK.pushString {cs : List Char} {pos p n : Nat} {w : SegWip}
    (h : WipOK cs pos w) (hp : pos ≤ p) (hn : 1 ≤ n)
    (hb1 : IsCharBoundary cs p) (hb2 : IsCharBoundary cs (p + n)) :
    WipOK cs (p + n) { w with strings := w.strings ++ [(p, p + n)] } :=
  ⟨h.1.monoR (by omega), h.2.1.push hp hn hb1 hb2, h.2.2.1.monoR (by omega),
   h.2.2.2.1.pushR (h.1.bounded hp), h.2.2.2.2.1,
   h.2.2.2.2.2.pushL (h.2.2.1.bounded hp)⟩

theorem WipOK.pushError {cs : List Char} {pos p n : Nat} {w : SegWip}
    (h : WipOK cs pos w) (hp : pos ≤ p) (hn : 1 ≤ n)
    (hb1 : IsCharBoundary cs p) (hb2 : IsCharBoundary cs (p + n)) :
    WipOK cs (p + n) { w with errors := w.errors ++ [(p, p + n)] } :=
  ⟨h.1.monoR (by omega), h.2.1.monoR (by omega), h.2.2.1.push hp hn hb1 hb2,
   h.2.2.2.1, h.2.2.2.2.1.pushR (h.1.bounded hp),
   h.2.2.2.2.2.pushR (h.2.1.bounded hp)⟩

/-- One advancing step of the segmenter: if the parsed advancement splits
the found suffix on a character boundary, dropping it succeeds and the
recursive call (through the induction hypothesis `ih`) finishes the walk. -/
theorem segGo_push_case {fuel : Nat}
    (ih : ∀ (pre cs : List Char) (pos : Nat) (wip : SegWip) (orig : List Char),
      byteLen cs < fuel → orig = pre ++ cs → byteLen pre = pos →
      WipOK orig pos wip →
      ∃ w, segGo fuel cs pos wip = .ok w ∧ WipOK orig (byteLen orig) w)
    {pre s1 suf c1 c2 : List Char} {n : Nat} {wip2 : SegWip}
    (hsuf : suf = c1 ++ c2) (hc1 : byteLen c1 = n) (h1 : 1 ≤ n)
    (hfuel : byteLen (s1 ++ suf) ≤ fuel)
    (hwip2 : WipOK (pre ++ (s1 ++ suf)) (byteLen pre + byteLen s1 + n) wip2) :
    ∃ w, (match dropBytes suf n with
          | some suf2 => segGo fuel suf2 (byteLen pre + byteLen s1 + n) wip2
          | none => Res.panicked) = Res.ok w ∧
      WipOK (pre ++ (s1 ++ suf)) (byteLen (pre ++ (s1 ++ suf))) w := by
  have hdrop : dropBytes suf n = some c2 := by
    rw [hsuf, ← hc1]
    exact dropBytes_append c1 c2
  rw [hdrop]
  have horig : pre ++ (s1 ++ suf) = (pre ++ s1 ++ c1) ++ c2 := by
    rw [hsuf]
    simp [List.append_assoc]
  have hpre2 : byteLen (pre ++ s1 ++ c1) = byteLen pre + byteLen s1 + n := by
    rw [byteLen_append, byteLen_append, hc1]
  have hlt : byteLen c2 < fuel := by
    have hb : byteLen (s1 ++ suf) = byteLen s1 + (byteLen c1 + byteLen c2) := by
      rw [hsuf]
      simp [byteLen_append]
    omega
  exact ih (pre ++ s1 ++ c1) c2 _ wip2 _ hlt horig hpre2 hwip2

/-- The segmenter's main loop is total given enough fuel and preserves the
range invariant: starting from a well-formed accumulator at the byte
position of the consumed prefix, it returns a well-formed accumulator for
the whole text. -/
theorem segGo_ok : ∀ (fuel : Nat) (pre cs : List Char) (pos : Nat)
    (wip : SegWip) (orig : List Char), byteLen cs < fuel →
    orig = pre ++ cs → byteLen pre = pos → WipOK orig pos wip →
    ∃ w, segGo fuel cs pos wip = .ok w ∧ WipOK orig (byteLen orig) w := by
  intro fuel
  induction fuel with
  | zero =>
    intro pre cs pos wip orig hfuel _ _ _
    omega
  | succ fuel ih =>
    intro pre cs pos wip orig hfuel horig hpre hwip
    subst horig
    subst hpre
    cases hf : findStart (comment_start_chars ++ string_start_chars) cs with
    | none =>
      refine ⟨wip, by simp [segGo, hf], hwip.monoW ?_⟩
      rw [byteLen_append]
      omega
    | some pr =>
      obtain ⟨off, suf⟩ := pr
      obtain ⟨s1, hcs, hs1, c, rest, hsuf, hcset⟩ := findStart_spec hf
      subst hcs
      subst hsuf
      subst hs1
      have hb1 : IsCharBoundary (pre ++ (s1 ++ c :: rest))
          (byteLen pre + byteLen s1) :=
        ⟨pre ++ s1, c :: rest, by simp, byteLen_append pre s1⟩
      have hcset2 : c = '%' ∨ c = '/' ∨ c = '"' := by
        simpa [comment_start_chars, string_start_chars] using hcset
      have hfuel2 : byteLen (s1 ++ c :: rest) ≤ fuel := by omega
      rcases hcset2 with rfl | rfl | rfl
      · -- a `%` line comment: always a comment or (never here) an error
        obtain ⟨e, hbp, hadv⟩ := bpc_percent_spec (r := rest)
        have hpc : parse_comment_at ('%' :: rest) = .ok (some e) := hbp
        have hps : parse_string_at ('%' :: rest) = .ok none := rfl
        obtain ⟨h1, c1, c2, hsplit, hlen⟩ := hadv
        have hb2 : IsCharBoundary (pre ++ (s1 ++ '%' :: rest))
            (byteLen pre + byteLen s1 + advOf e) :=
          ⟨pre ++ s1 ++ c1, c2, by rw [hsplit]; simp,
           by rw [byteLen_append, byteLen_append, hlen]⟩
        cases e with
        | ok n =>
          simp only [segGo, hf, hpc, hps]
          exact segGo_push_case ih hsplit hlen h1 hfuel2
            (hwip.pushComment (by omega) h1 hb1 hb2)
        | error n =>
          simp only [segGo, hf, hpc, hps]
          exact segGo_push_case ih hsplit hlen h1 hfuel2
            (hwip.pushError (by omega) h1 hb1 hb2)
      · -- a `/`: nested comment, unterminated comment, or a bare slash
        obtain ⟨o, ho, hadv⟩ := bpc_slash_spec (r := rest)
        have hpc : parse_comment_at ('/' :: rest) = .ok o := ho
        have hps : parse_string_at ('/' :: rest) = .ok none := rfl
        cases o with
        | some e =>
          obtain ⟨h1, c1, c2, hsplit, hlen⟩ := hadv e rfl
          have hb2 : IsCharBoundary (pre ++ (s1 ++ '/' :: rest))
              (byteLen pre + byteLen s1 + advOf e) :=
            ⟨pre ++ s1 ++ c1, c2, by rw [hsplit]; simp,
             by rw [byteLen_append, byteLen_append, hlen]⟩
          cases e with
          | ok n =>
            simp only [segGo, hf, hpc, hps]
            exact segGo_push_case ih hsplit hlen h1 hfuel2
              (hwip.pushComment (by omega) h1 hb1 hb2)
          | error n =>
            simp only [segGo, hf, hpc, hps]
            exact segGo_push_case ih hsplit hlen h1 hfuel2
              (hwip.pushError (by omega) h1 hb1 hb2)
        | none =>
          have hone : 1 ≤ byteLen ('/' :: rest) := by
            rw [byteLen_cons]
            have := utf8Len_pos '/'
            omega
          simp only [segGo, hf, hpc, hps, if_pos hone]
          exact segGo_push_case ih
            (show ('/' : Char) :: rest = ['/'] ++ rest from rfl) rfl (le_refl 1) hfuel2
            (hwip.monoW (by omega))
      · -- a `"`: a string or an unterminated string error
        obtain ⟨e, hbs, hadv⟩ := bps_quote_spec (r := rest)
        have hpc : parse_comment_at ('"' :: rest) = .ok none := rfl
        have hps : parse_string_at ('"' :: rest) = .ok (some e) := hbs
        obtain ⟨h1, c1, c2, hsplit, hlen⟩ := hadv
        have hb2 : IsCharBoundary (pre ++ (s1 ++ '"' :: rest))
            (byteLen pre + byteLen s1 + advOf e) :=
          ⟨pre ++ s1 ++ c1, c2, by rw [hsplit]; simp,
           by rw [byteLen_append, byteLen_append, hlen]⟩
        cases e with
        | ok n =>
          simp only [segGo, hf, hpc, hps]
          exact segGo_push_case ih hsplit hlen h1 hfuel2
            (hwip.pushString (by omega) h1 hb1 hb2)
        | error n =>
          simp only [segGo, hf, hpc, hps]
          exact segGo_push_case ih hsplit hlen h1 hfuel2
            (hwip.pushError (by omega) h1 hb1 hb2)

/-! ### Chunker invariants (claim C9) -/

/-- A range belonging to one of the three segmented-range lists of a
chunk. -/
def KnownIn (c : Chunk) (r : Nat × Nat) : Prop :=
  r ∈ c.comments ∨ r ∈ c.strings ∨ r ∈ c.errors

/-- A well-formed segmented doc: exactly the invariant established for the
segmenter's output (claim C8). -/
def ChunkWF (c : Chunk) : Prop :=
  RangesOK c.text (byteLen c.text) c.comments ∧
  RangesOK c.text (byteLen c.text) c.strings ∧
  RangesOK c.text (byteLen c.text) c.errors ∧
  RangesDisj c.comments c.strings ∧
  RangesDisj c.comments c.errors ∧
  RangesDisj c.strings c.errors

theorem ChunkWF.known {c : Chunk} (h : ChunkWF c) {r : Nat × Nat}
    (hr : KnownIn c r) : r.1 < r.2 ∧ r.2 ≤ byteLen c.text ∧
      IsCharBoundary c.text r.1 ∧ IsCharBoundary c.text r.2 := by
  rcases hr with hm | hm | hm
  exacts [h.1.1 r hm, h.2.1.1 r hm, h.2.2.1.1 r hm]

/-- In a `Pairwise R` list, two distinct members are related one way or the
other. -/
theorem pairwise_mem_rel {α : Type} {R : α → α → Prop} {l : List α}
    (h : l.Pairwise R) {x y : α} (hx : x ∈ l) (hy : y ∈ l) (hne : x ≠ y) :
    R x y ∨ R y x := by
  induction h with
  | nil => simp at hx
  | cons hhead _ ih =>
    rcases List.mem_cons.mp hx with rfl | hx2
    · rcases List.mem_cons.mp hy with rfl | hy2
      · exact absurd rfl hne
      · exact Or.inl (hhead y hy2)
    · rcases List.mem_cons.mp hy with rfl | hy2
      · exact Or.inr (hhead x hx2)
      · exact ih hx2 hy2

theorem mergeRangesBy_mem {fuel : Nat} {xs ys : List ((Nat × Nat) × RangeKind)}
    {x : (Nat × Nat) × RangeKind} :
    x ∈ mergeRangesBy fuel xs ys ↔ x ∈ xs ∨ x ∈ ys := by
  induction fuel generalizing xs ys with
  | zero => simp [mergeRangesBy]
  | succ fuel ih =>
    cases xs with
    | nil => simp [mergeRangesBy]
    | cons a as =>
      cases ys with
      | nil => simp [mergeRangesBy]
      | cons b bs =>
        simp only [mergeRangesBy]
        by_cases hle : a.1.1 ≤ b.1.1
        · rw [if_pos hle]
          simp only [List.mem_cons, ih]
          tauto
        · rw [if_neg hle]
          simp only [List.mem_cons, ih]
          tauto

/-- Merging two sorted lists of pairwise-disjoint nonempty ranges yields a
sorted list of pairwise-disjoint ranges (with enough fuel). -/
theorem mergeRangesBy_chain : ∀ (fuel : Nat)
    (xs ys : List ((Nat × Nat) × RangeKind)),
    xs.length + ys.length ≤ fuel →
    xs.Pairwise (fun x y => x.1.2 ≤ y.1.1) →
    ys.Pairwise (fun x y => x.1.2 ≤ y.1.1) →
    (∀ x ∈ xs, x.1.1 < x.1.2) → (∀ y ∈ ys, y.1.1 < y.1.2) →
    (∀ x ∈ xs, ∀ y ∈ ys, x.1.2 ≤ y.1.1 ∨ y.1.2 ≤ x.1.1) →
    (mergeRangesBy fuel xs ys).Pairwise (fun x y => x.1.2 ≤ y.1.1) := by
  intro fuel
  induction fuel with
  | zero =>
    intro xs ys hlen hx hy _ _ _
    have h1 : xs = [] := List.length_eq_zero.mp (by omega)
    have h2 : ys = [] := List.length_eq_zero.mp (by omega)
    subst h1
    subst h2
    simp [mergeRangesBy]
  | succ fuel ih =>
    intro xs ys hlen hx hy hnex hney hd
    cases xs with
    | nil => simpa [mergeRangesBy] using hy
    | cons a as =>
      cases ys with
      | nil => simpa [mergeRangesBy] using hx
      | cons b bs =>
        obtain ⟨hxh, hxt⟩ := List.pairwise_cons.mp hx
        obtain ⟨hyh, hyt⟩ := List.pairwise_cons.mp hy
        simp only [mergeRangesBy]
        by_cases hle : a.1.1 ≤ b.1.1
        · rw [if_pos hle]
          refine List.Pairwise.cons ?_ (ih as (b :: bs) (by simp at hlen ⊢; omega)
            hxt hy (fun x h => hnex x (List.mem_cons_of_mem _ h)) hney
            (fun x h y h2 => hd x (List.mem_cons_of_mem _ h) y h2))
          intro z hz
          rcases mergeRangesBy_mem.mp hz with hz2 | hz2
          · exact hxh z hz2
          · rcases hd a (List.mem_cons_self _ _) z hz2 with h | h
            · exact h
            · exfalso
              have ha12 := hnex a (List.mem_cons_self _ _)
              rcases List.mem_cons.mp hz2 with rfl | hz3
              · have := hney z (List.mem_cons_self _ _)
                omega
              · have h1 := hyh z hz3
                have h2 := hney b (List.mem_cons_self _ _)
                have h3 := hney z (List.mem_cons_of_mem _ hz3)
                omega
        · rw [if_neg hle]
          refine List.Pairwise.cons ?_ (ih (a :: as) bs (by simp at hlen ⊢; omega)
            hx hyt hnex (fun y h => hney y (List.mem_cons_of_mem _ h))
            (fun x h y h2 => hd x h y (List.mem_cons_of_mem _ h2)))
          intro z hz
          rcases mergeRangesBy_mem.mp hz with hz2 | hz2
          · rcases hd z hz2 b (List.mem_cons_self _ _) with h | h
            · exfalso
              have hb12 := hney b (List.mem_cons_self _ _)
              rcases List.mem_cons.mp hz2 with rfl | hz3
              · have := hnex z (List.mem_cons_self _ _)
                omega
              · have h1 := hxh z hz3
                have h2 := hnex a (List.mem_cons_self _ _)
                have h3 := hnex z (List.mem_cons_of_mem _ hz3)
                omega
            · exact h
          · exact hyh z hz2

/-- The gap-filling walk succeeds on a sorted disjoint in-bounds list of
nonempty known ranges and produces a sorted disjoint list containing every
known range, every other element being `Unknown`, all in bounds with
boundary endpoints. -/
theorem fillRanges_spec {T : List Char} : ∀ (l : List ((Nat × Nat) × RangeKind))
    (pos : Nat), pos ≤ byteLen T → IsCharBoundary T pos →
    (∀ x ∈ l, pos ≤ x.1.1) →
    l.Pairwise (fun x y => x.1.2 ≤ y.1.1) →
    (∀ x ∈ l, x.1.1 < x.1.2 ∧ x.1.2 ≤ byteLen T ∧
      IsCharBoundary T x.1.1 ∧ IsCharBoundary T x.1.2) →
    ∃ out, fillRanges (byteLen T) l pos = .ok out ∧
      (∀ x ∈ l, x ∈ out) ∧
      (∀ x ∈ out, x ∈ l ∨ x.2 = RangeKind.unknown) ∧
      (∀ x ∈ out, x.1.1 < x.1.2 ∧ x.1.2 ≤ byteLen T ∧
        IsCharBoundary T x.1.1 ∧ IsCharBoundary T x.1.2) ∧
      (∀ x ∈ out, pos ≤ x.1.1) ∧
      out.Pairwise (fun x y => x.1.2 ≤ y.1.1) := by
  intro l
  induction l with
  | nil =>
    intro pos hpos hb _ _ _
    by_cases hlt : pos < byteLen T
    · refine ⟨[((pos, byteLen T), .unknown)], by simp [fillRanges, hlt], ?_⟩
      have hbT : IsCharBoundary T (byteLen T) := ⟨T, [], by simp, rfl⟩
      simp only [List.mem_singleton]
      refine ⟨by simp, fun x hx => Or.inr (by rw [hx]), fun x hx => ?_,
        fun x hx => by rw [hx], List.pairwise_singleton _ _⟩
      rw [hx]
      exact ⟨hlt, le_refl _, hb, hbT⟩
    · exact ⟨[], by simp [fillRanges, hlt], by simp, by simp, by simp, by simp,
        List.Pairwise.nil⟩
  | cons rk rest ih =>
    intro pos hpos hb hstart hpw hfacts
    obtain ⟨r, k⟩ := rk
    obtain ⟨hr12, hr2, hbr1, hbr2⟩ :
        r.1 < r.2 ∧ r.2 ≤ byteLen T ∧
          IsCharBoundary T r.1 ∧ IsCharBoundary T r.2 :=
      hfacts _ (List.mem_cons_self _ _)
    obtain ⟨hpwh, hpwt⟩ := List.pairwise_cons.mp hpw
    have hposr : pos ≤ r.1 := hstart _ (List.mem_cons_self _ _)
    obtain ⟨out2, hfill, hmem, hunk, hfact2, hstart2, hpw2⟩ :=
      ih r.2 hr2 hbr2 (fun x hx => hpwh x hx) hpwt
        (fun x hx => hfacts x (List.mem_cons_of_mem _ hx))
    rcases Nat.lt_or_ge pos r.1 with hlt | hge
    · -- a gap: an Unknown range precedes the known one
      have hcmp : compare pos r.1 = .lt := compare_lt_iff_lt.mpr hlt
      refine ⟨((pos, r.1), .unknown) :: (r, k) :: out2, ?_, ?_, ?_, ?_, ?_, ?_⟩
      · simp only [fillRanges, hcmp, hfill]
      · intro x hx
        rcases List.mem_cons.mp hx with rfl | hx2
        · simp
        · simp [hmem x hx2]
      · intro x hx
        rcases List.mem_cons.mp hx with rfl | hx2
        · exact Or.inr rfl
        · rcases List.mem_cons.mp hx2 with rfl | hx3
          · exact Or.inl (List.mem_cons_self _ _)
          · rcases hunk x hx3 with h | h
            · exact Or.inl (List.mem_cons_of_mem _ h)
            · exact Or.inr h
      · intro x hx
        rcases List.mem_cons.mp hx with rfl | hx2
        · exact ⟨hlt, by show r.1 ≤ byteLen T; omega, hb, hbr1⟩
        · rcases List.mem_cons.mp hx2 with rfl | hx3
          · exact ⟨hr12, hr2, hbr1, hbr2⟩
          · exact hfact2 x hx3
      · intro x hx
        rcases List.mem_cons.mp hx with rfl | hx2
        · exact le_refl _
        · rcases List.mem_cons.mp hx2 with rfl | hx3
          · exact hposr
          · have := hstart2 x hx3
            show pos ≤ x.1.1
            omega
      · refine List.Pairwise.cons ?_ (List.Pairwise.cons ?_ hpw2)
        · intro z hz
          rcases List.mem_cons.mp hz with rfl | hz2
          · exact le_refl _
          · have := hstart2 z hz2
            show r.1 ≤ z.1.1
            omega
        · exact hstart2
    · -- the position sits exactly on the known range
      have heq : pos = r.1 := by omega
      have hcmp : compare pos r.1 = .eq := compare_eq_iff_eq.mpr heq
      refine ⟨(r, k) :: out2, ?_, ?_, ?_, ?_, ?_, ?_⟩
      · simp only [fillRanges, hcmp, hfill]
      · intro x hx
        rcases List.mem_cons.mp hx with rfl | hx2
        · simp
        · simp [hmem x hx2]
      · intro x hx
        rcases List.mem_cons.mp hx with rfl | hx2
        · exact Or.inl (List.mem_cons_self _ _)
        · rcases hunk x hx2 with h | h
          · exact Or.inl (List.mem_cons_of_mem _ h)
          · exact Or.inr h
      · intro x hx
        rcases List.mem_cons.mp hx with rfl | hx2
        · exact ⟨hr12, hr2, hbr1, hbr2⟩
        · exact hfact2 x hx2
      · intro x hx
        rcases List.mem_cons.mp hx with rfl | hx2
        · exact hposr
        · have := hstart2 x hx2
          show pos ≤ x.1.1
          omega
      · exact List.Pairwise.cons hstart2 hpw2

/-- `Chunk::ranges` on a well-formed chunk: it succeeds, keeps every
segmented range (with its kind), and tiles the rest as `Unknown`: the
output is sorted and disjoint with in-bounds boundary endpoints. -/
theorem ranges_spec {c : Chunk} (hwf : ChunkWF c) :
    ∃ out, Chunk.ranges c = .ok out ∧
      (∀ r ∈ c.comments, (r, RangeKind.comment) ∈ out) ∧
      (∀ r ∈ c.strings, (r, RangeKind.string) ∈ out) ∧
      (∀ r ∈ c.errors, (r, RangeKind.error) ∈ out) ∧
      (∀ x ∈ out, x.1.1 < x.1.2 ∧ x.1.2 ≤ byteLen c.text ∧
        IsCharBoundary c.text x.1.1 ∧ IsCharBoundary c.text x.1.2) ∧
      out.Pairwise (fun x y => x.1.2 ≤ y.1.1) := by
  obtain ⟨hC, hS, hE, hCS, hCE, hSE⟩ := hwf
  set tagC := c.comments.map (fun r => (r, RangeKind.comment)) with htagC
  set tagS := c.strings.map (fun r => (r, RangeKind.string)) with htagS
  set tagE := c.errors.map (fun r => (r, RangeKind.error)) with htagE
  have hmemC : ∀ x, x ∈ tagC ↔ x.1 ∈ c.comments ∧ x.2 = RangeKind.comment := by
    intro x
    rw [htagC]
    constructor
    · intro h
      obtain ⟨r, hr, rfl⟩ := List.mem_map.mp h
      exact ⟨hr, rfl⟩
    · intro ⟨h1, h2⟩
      exact List.mem_map.mpr ⟨x.1, h1, by rw [← h2]⟩
  have hmemS : ∀ x, x ∈ tagS ↔ x.1 ∈ c.strings ∧ x.2 = RangeKind.string := by
    intro x
    rw [htagS]
    constructor
    · intro h
      obtain ⟨r, hr, rfl⟩ := List.mem_map.mp h
      exact ⟨hr, rfl⟩
    · intro ⟨h1, h2⟩
      exact List.mem_map.mpr ⟨x.1, h1, by rw [← h2]⟩
  have hmemE : ∀ x, x ∈ tagE ↔ x.1 ∈ c.errors ∧ x.2 = RangeKind.error := by
    intro x
    rw [htagE]
    constructor
    · intro h
      obtain ⟨r, hr, rfl⟩ := List.mem_map.mp h
      exact ⟨hr, rfl⟩
    · intro ⟨h1, h2⟩
      exact List.mem_map.mpr ⟨x.1, h1, by rw [← h2]⟩
  set m1 := mergeRangesBy (tagC.length + tagS.length + 1) tagC tagS with hm1
  set known := mergeRangesBy (m1.length + tagE.length + 1) m1 tagE with hknown
  have hm1mem : ∀ x, x ∈ m1 ↔ x ∈ tagC ∨ x ∈ tagS := fun x => mergeRangesBy_mem
  have hkmem : ∀ x, x ∈ known ↔ x ∈ m1 ∨ x ∈ tagE := fun x => mergeRangesBy_mem
  have hCne : ∀ x ∈ tagC, x.1.1 < x.1.2 := by
    intro x hx
    exact (hC.1 x.1 ((hmemC x).mp hx).1).1
  have hSne : ∀ x ∈ tagS, x.1.1 < x.1.2 := by
    intro x hx
    exact (hS.1 x.1 ((hmemS x).mp hx).1).1
  have hEne : ∀ x ∈ tagE, x.1.1 < x.1.2 := by
    intro x hx
    exact (hE.1 x.1 ((hmemE x).mp hx).1).1
  have hm1ne : ∀ x ∈ m1, x.1.1 < x.1.2 := by
    intro x hx
    rcases (hm1mem x).mp hx with h | h
    exacts [hCne x h, hSne x h]
  have hm1chain : m1.Pairwise (fun x y => x.1.2 ≤ y.1.1) := by
    refine mergeRangesBy_chain _ tagC tagS (by omega) ?_ ?_ hCne hSne ?_
    · rw [htagC, List.pairwise_map]
      exact hC.2
    · rw [htagS, List.pairwise_map]
      exact hS.2
    · intro x hx y hy
      exact hCS x.1 ((hmemC x).mp hx).1 y.1 ((hmemS y).mp hy).1
  have hkchain : known.Pairwise (fun x y => x.1.2 ≤ y.1.1) := by
    refine mergeRangesBy_chain _ m1 tagE (by omega) hm1chain ?_ hm1ne hEne ?_
    · rw [htagE, List.pairwise_map]
      exact hE.2
    · intro x hx y hy
      rcases (hm1mem x).mp hx with h | h
      · exact hCE x.1 ((hmemC x).mp h).1 y.1 ((hmemE y).mp hy).1
      · exact hSE x.1 ((hmemS x).mp h).1 y.1 ((hmemE y).mp hy).1
  have hkfacts : ∀ x ∈ known, x.1.1 < x.1.2 ∧ x.1.2 ≤ byteLen c.text ∧
      IsCharBoundary c.text x.1.1 ∧ IsCharBoundary c.text x.1.2 := by
    intro x hx
    rcases (hkmem x).mp hx with h | h
    · rcases (hm1mem x).mp h with h2 | h2
      · exact hC.1 x.1 ((hmemC x).mp h2).1
      · exact hS.1 x.1 ((hmemS x).mp h2).1
    · exact hE.1 x.1 ((hmemE x).mp h).1
  obtain ⟨out, hfill, hmem, _, hfacts, _, hpw⟩ :=
    fillRanges_spec known 0 (by omega) ⟨[], c.text, rfl, rfl⟩
      (fun x _ => Nat.zero_le _) hkchain hkfacts
  refine ⟨out, ?_, ?_, ?_, ?_, hfacts, hpw⟩
  · rw [Chunk.ranges]
    exact hfill
  · intro r hr
    exact hmem _ ((hkmem _).mpr (Or.inl ((hm1mem _).mpr
      (Or.inl ((hmemC (r, RangeKind.comment)).mpr ⟨hr, rfl⟩)))))
  · intro r hr
    exact hmem _ ((hkmem _).mpr (Or.inl ((hm1mem _).mpr
      (Or.inr ((hmemS (r, RangeKind.string)).mpr ⟨hr, rfl⟩)))))
  · intro r hr
    exact hmem _ ((hkmem _).mpr (Or.inr ((hmemE (r, RangeKind.error)).mpr ⟨hr, rfl⟩)))

/-- No `Unknown` range in the tiling straddles a segmented range. -/
theorem unknown_disjoint {c : Chunk} {out : List ((Nat × Nat) × RangeKind)}
    (hmemC : ∀ r ∈ c.comments, (r, RangeKind.comment) ∈ out)
    (hmemS : ∀ r ∈ c.strings, (r, RangeKind.string) ∈ out)
    (hmemE : ∀ r ∈ c.errors, (r, RangeKind.error) ∈ out)
    (hpw : out.Pairwise (fun x y => x.1.2 ≤ y.1.1))
    {u : Nat × Nat} (hu : (u, RangeKind.unknown) ∈ out)
    {r : Nat × Nat} (hr : KnownIn c r) :
    r.2 ≤ u.1 ∨ u.2 ≤ r.1 := by
  have htag : ∃ k, k ≠ RangeKind.unknown ∧ (r, k) ∈ out := by
    rcases hr with h | h | h
    · exact ⟨RangeKind.comment, by simp, hmemC r h⟩
    · exact ⟨RangeKind.string, by simp, hmemS r h⟩
    · exact ⟨RangeKind.error, by simp, hmemE r h⟩
  obtain ⟨k, hk, hrk⟩ := htag
  have hne : (r, k) ≠ (u, RangeKind.unknown) := by
    intro h
    exact hk (congrArg Prod.snd h)
  exact pairwise_mem_rel hpw hrk hu hne

/-- The ranges of one kind carried by a chunk list, translated back to
global byte offsets (`s` is the global start of the first chunk). -/
def globalRanges (f : Chunk → List (Nat × Nat)) : Nat → List Chunk →
    List (Nat × Nat)
  | _, [] => []
  | s, ch :: rest =>
    (f ch).map (fun q => (q.1 + s, q.2 + s)) ++
      globalRanges f (s + byteLen ch.text) rest

theorem globalRanges_append (f : Chunk → List (Nat × Nat)) :
    ∀ (l1 : List Chunk) (s : Nat) (l2 : List Chunk),
    globalRanges f s (l1 ++ l2) =
      globalRanges f s l1 ++
        globalRanges f (s + byteLen (l1.map Chunk.text).flatten) l2 := by
  intro l1
  induction l1 with
  | nil => simp [globalRanges, byteLen]
  | cons ch l1 ih =>
    intro s l2
    simp only [List.cons_append, globalRanges, List.map_cons, List.flatten_cons,
      byteLen_append, List.append_eq, ih, List.append_assoc]
    rw [Nat.add_assoc]

/-- Two prefixes of the same text with equal byte length are equal. -/
theorem prefix_byteLen_eq {T A B : List Char} (h1 : ∃ X, T = A ++ X)
    (h2 : ∃ Y, T = B ++ Y) (hlen : byteLen A = byteLen B) : A = B := by
  obtain ⟨X, hX⟩ := h1
  obtain ⟨Y, hY⟩ := h2
  rcases List.prefix_or_prefix_of_prefix ⟨X, hX.symm⟩ ⟨Y, hY.symm⟩ with ⟨M, hM⟩ | ⟨M, hM⟩
  · have hbl : byteLen A + byteLen M = byteLen B := by
      rw [← hM, byteLen_append]
    have hM0 : M = [] := byteLen_eq_zero (by omega)
    subst hM0
    rw [← hM, List.append_nil]
  · have hbl : byteLen B + byteLen M = byteLen A := by
      rw [← hM, byteLen_append]
    have hM0 : M = [] := byteLen_eq_zero (by omega)
    subst hM0
    rw [← hM, List.append_nil]

/-- Slicing between two character boundaries succeeds and yields the
middle segment. -/
theorem sliceBytes_spec {T : List Char} {a b : Nat} (hab : a ≤ b)
    (h1 : IsCharBoundary T a) (h2 : IsCharBoundary T b) :
    ∃ A M B2, T = A ++ M ++ B2 ∧ byteLen A = a ∧ byteLen M = b - a ∧
      sliceBytes T a b = some M := by
  obtain ⟨A, S, hTA, hA⟩ := h1
  obtain ⟨A2, B2, hTB, hB⟩ := h2
  have hAA2 : ∃ M, A2 = A ++ M := by
    rcases List.prefix_or_prefix_of_prefix ⟨S, hTA.symm⟩ ⟨B2, hTB.symm⟩ with
      ⟨M, hM⟩ | ⟨M, hM⟩
    · exact ⟨M, hM.symm⟩
    · have hbl : byteLen A2 + byteLen M = byteLen A := by
        rw [← hM, byteLen_append]
      have hM0 : M = [] := byteLen_eq_zero (by omega)
      subst hM0
      exact ⟨[], by rw [← hM]; simp⟩
  obtain ⟨M, rfl⟩ := hAA2
  have hM : byteLen M = b - a := by
    rw [byteLen_append] at hB
    omega
  have hT : T = A ++ (M ++ B2) := by
    rw [hTB, List.append_assoc]
  have hdrop : dropBytes T a = some (M ++ B2) := by
    rw [hT, ← hA]
    exact dropBytes_append A (M ++ B2)
  have htake : takeBytes (M ++ B2) (b - a) = some M := by
    rw [← hM]
    exact takeBytes_append M B2
  refine ⟨A, M, B2, by rw [hT, List.append_assoc], hA, hM, ?_⟩
  unfold sliceBytes
  rw [if_pos hab, hdrop, Option.some_bind, htake]

/-- The chunker's per-list invariant: the work-in-progress ranges (local to
the chunk starting at `cs`) end before `pos`, the unconsumed input suffix
`rem` starts at or after `cs`, stays sorted and disjoint, and re-shifting
the wip by `cs` and appending `rem` reconstructs the input after the
already-distributed `glob` prefix. -/
structure LInv (input : List (Nat × Nat)) (cs pos : Nat)
    (glob wip rem : List (Nat × Nat)) : Prop where
  hwip : ∀ q ∈ wip, q.1 < q.2 ∧ cs + q.2 ≤ pos
  hrem : ∀ r ∈ rem, cs ≤ r.1
  hch : rem.Pairwise (fun r r2 => r.2 ≤ r2.1)
  hin : ∀ r ∈ rem, r ∈ input
  hgl : glob ++ wip.map (fun q => (q.1 + cs, q.2 + cs)) ++ rem = input

theorem LInv.monoL {input : List (Nat × Nat)} {cs pos p2 : Nat}
    {glob wip rem : List (Nat × Nat)}
    (h : LInv input cs pos glob wip rem) (hle : pos ≤ p2) :
    LInv input cs p2 glob wip rem where
  hwip q hq := ⟨(h.hwip q hq).1, le_trans (h.hwip q hq).2 hle⟩
  hrem := h.hrem
  hch := h.hch
  hin := h.hin
  hgl := h.hgl

/-- `collectOne` under the invariant: it succeeds, moves exactly the ranges
behind `p2` into the wip, and leaves the rest. -/
theorem LInv.collect {input : List (Nat × Nat)} {cs p2 : Nat}
    {glob : List (Nat × Nat)} :
    ∀ {rem wip : List (Nat × Nat)},
    LInv input cs p2 glob wip rem →
    (∀ r ∈ input, r.1 < r.2) →
    (∀ r ∈ rem, r.2 ≤ p2 ∨ p2 ≤ r.1) →
    ∃ rem2 wip2, collectOne p2 cs rem wip = .ok (rem2, wip2) ∧
      LInv input cs p2 glob wip2 rem2 ∧ (∀ r ∈ rem2, p2 ≤ r.1) := by
  intro rem
  induction rem with
  | nil =>
    intro wip h _ _
    exact ⟨[], wip, rfl, h, by simp⟩
  | cons r rest ih =>
    intro wip h hI hsp
    have hcs1 : cs ≤ r.1 := h.hrem r (List.mem_cons_self _ _)
    have hr12 : r.1 < r.2 := hI r (h.hin r (List.mem_cons_self _ _))
    obtain ⟨hchh, hcht⟩ := List.pairwise_cons.mp h.hch
    by_cases hlt : r.1 < p2
    · have hr2 : r.2 ≤ p2 := by
        rcases hsp r (List.mem_cons_self _ _) with h2 | h2
        · exact h2
        · omega
      have h2 : LInv input cs p2 glob (wip ++ [(r.1 - cs, r.2 - cs)]) rest := by
        refine ⟨?_, fun q hq => h.hrem q (List.mem_cons_of_mem _ hq), hcht,
          fun q hq => h.hin q (List.mem_cons_of_mem _ hq), ?_⟩
        · intro q hq
          rcases List.mem_append.mp hq with hq2 | hq2
          · exact h.hwip q hq2
          · simp only [List.mem_singleton] at hq2
            subst hq2
            constructor
            · show r.1 - cs < r.2 - cs
              omega
            · show cs + (r.2 - cs) ≤ p2
              omega
        · show glob ++ (wip ++ [(r.1 - cs, r.2 - cs)]).map
              (fun q => (q.1 + cs, q.2 + cs)) ++ rest = input
          have hshift : ((r.1 - cs, r.2 - cs) : Nat × Nat).1 + cs = r.1 ∧
              ((r.1 - cs, r.2 - cs) : Nat × Nat).2 + cs = r.2 := by
            constructor <;> simp <;> omega
          rw [List.map_append]
          have : ([(r.1 - cs, r.2 - cs)].map (fun q => (q.1 + cs, q.2 + cs))) =
              [r] := by
            simp only [List.map_cons, List.map_nil]
            rw [hshift.1, hshift.2]
          rw [this]
          rw [← h.hgl]
          simp [List.append_assoc]
      obtain ⟨rem2, wip2, hco, hli, hge⟩ := ih h2 hI
        (fun q hq => hsp q (List.mem_cons_of_mem _ hq))
      refine ⟨rem2, wip2, ?_, hli, hge⟩
      simp only [collectOne, if_pos hlt, if_pos hr2,
        if_pos (⟨hcs1, by omega⟩ : cs ≤ r.1 ∧ cs ≤ r.2)]
      exact hco
    · refine ⟨r :: rest, wip, ?_, h, ?_⟩
      · simp only [collectOne, if_neg hlt]
      · intro q hq
        rcases List.mem_cons.mp hq with rfl | hq2
        · omega
        · have := hchh q hq2
          omega

/-- The chunker's whole-state invariant over the input chunk `c`. -/
structure CkInv (c : Chunk) (st : CkSt) : Prop where
  hcs_pos : st.chunk_start ≤ st.position
  hpos_len : st.position ≤ byteLen c.text
  hb_cs : IsCharBoundary c.text st.chunk_start
  hb_pos : IsCharBoundary c.text st.position
  htext : ∃ rst, c.text = (st.chunks.map Chunk.text).flatten ++ rst
  hjoin : byteLen (st.chunks.map Chunk.text).flatten = st.chunk_start
  hne : ∀ ch ∈ st.chunks, ch.text ≠ []
  hloc : ∀ ch ∈ st.chunks,
    (∀ r ∈ ch.comments, r.1 < r.2 ∧ r.2 ≤ byteLen ch.text) ∧
    (∀ r ∈ ch.strings, r.1 < r.2 ∧ r.2 ≤ byteLen ch.text) ∧
    (∀ r ∈ ch.errors, r.1 < r.2 ∧ r.2 ≤ byteLen ch.text)
  hC : LInv c.comments st.chunk_start st.position
    (globalRanges Chunk.comments 0 st.chunks) st.wipC st.comments_rem
  hS : LInv c.strings st.chunk_start st.position
    (globalRanges Chunk.strings 0 st.chunks) st.wipS st.strings_rem
  hE : LInv c.errors st.chunk_start st.position
    (globalRanges Chunk.errors 0 st.chunks) st.wipE st.errors_rem

/-- Moving the position forward (to a boundary within the text) preserves
the invariant. -/
theorem CkInv.stepPos {c : Chunk} {st : CkSt} (h : CkInv c st) {p : Nat}
    (hp : st.position ≤ p) (hlen : p ≤ byteLen c.text)
    (hb : IsCharBoundary c.text p) : CkInv c { st with position := p } where
  hcs_pos := le_trans h.hcs_pos hp
  hpos_len := hlen
  hb_cs := h.hb_cs
  hb_pos := hb
  htext := h.htext
  hjoin := h.hjoin
  hne := h.hne
  hloc := h.hloc
  hC := h.hC.monoL hp
  hS := h.hS.monoL hp
  hE := h.hE.monoL hp

/-- `push_chunk` under the invariant: collecting at the new position
succeeds, the emitted chunk (if any) carries the pending local ranges, and
both cursors land on the new position with the wip lists empty. -/
theorem push_chunk_ok {c : Chunk} (hwf : ChunkWF c) {st : CkSt} {eat p2 : Nat}
    (hinv : CkInv c st)
    (hp2 : st.position + eat = p2)
    (hb : IsCharBoundary c.text p2)
    (hlen : p2 ≤ byteLen c.text)
    (hstr : ∀ r, KnownIn c r → r.2 ≤ p2 ∨ p2 ≤ r.1) :
    ∃ st2, push_chunk c.text st eat = .ok st2 ∧ CkInv c st2 ∧
      st2.position = p2 ∧ st2.chunk_start = p2 ∧
      st2.wipC = [] ∧ st2.wipS = [] ∧ st2.wipE = [] ∧
      (∀ r ∈ st2.comments_rem, p2 ≤ r.1) ∧
      (∀ r ∈ st2.strings_rem, p2 ≤ r.1) ∧
      (∀ r ∈ st2.errors_rem, p2 ≤ r.1) := by
  subst hp2
  have hple : st.position ≤ st.position + eat := Nat.le_add_right _ _
  have hcsle : st.chunk_start ≤ st.position + eat := le_trans hinv.hcs_pos hple
  have hIc : ∀ r ∈ c.comments, r.1 < r.2 :=
    fun r hr => (ChunkWF.known hwf (Or.inl hr)).1
  have hIs : ∀ r ∈ c.strings, r.1 < r.2 :=
    fun r hr => (ChunkWF.known hwf (Or.inr (Or.inl hr))).1
  have hIe : ∀ r ∈ c.errors, r.1 < r.2 :=
    fun r hr => (ChunkWF.known hwf (Or.inr (Or.inr hr))).1
  obtain ⟨remC, wipC2, hcoC, hliC, hgeC⟩ := (hinv.hC.monoL hple).collect hIc
    (fun r hr => hstr r (Or.inl (hinv.hC.hin r hr)))
  obtain ⟨remS, wipS2, hcoS, hliS, hgeS⟩ := (hinv.hS.monoL hple).collect hIs
    (fun r hr => hstr r (Or.inr (Or.inl (hinv.hS.hin r hr))))
  obtain ⟨remE, wipE2, hcoE, hliE, hgeE⟩ := (hinv.hE.monoL hple).collect hIe
    (fun r hr => hstr r (Or.inr (Or.inr (hinv.hE.hin r hr))))
  obtain ⟨A, M, B2, hTsplit, hA, hM, hslice⟩ :=
    sliceBytes_spec hcsle hinv.hb_cs hb
  simp only [push_chunk, collect_ranges, hcoC, hcoS, hcoE, hslice,
    if_pos hlen]
  by_cases hMe : M.isEmpty
  · rw [if_pos hMe]
    have hMnil : M = [] := by
      cases M with
      | nil => rfl
      | cons a r => simp [List.isEmpty] at hMe
    have hcsP : st.chunk_start = st.position + eat := by
      rw [hMnil] at hM
      simp [byteLen] at hM
      omega
    have hwnil : ∀ (wip : List (Nat × Nat)),
        (∀ q ∈ wip, q.1 < q.2 ∧ st.chunk_start + q.2 ≤ st.position + eat) →
        wip = [] := by
      intro wip hw
      cases wip with
      | nil => rfl
      | cons q r =>
        have := hw q (List.mem_cons_self _ _)
        omega
    have hC2 : wipC2 = [] := hwnil _ hliC.hwip
    have hS2 : wipS2 = [] := hwnil _ hliS.hwip
    have hE2 : wipE2 = [] := hwnil _ hliE.hwip
    refine ⟨_, rfl, ?_, rfl, rfl, hC2, hS2, hE2, hgeC, hgeS, hgeE⟩
    refine ⟨le_refl _, hlen, ?_, hb, hinv.htext, ?_, hinv.hne, hinv.hloc,
      ?_, ?_, ?_⟩
    · show IsCharBoundary c.text (st.position + eat)
      exact hb
    · show byteLen _ = st.position + eat
      rw [hinv.hjoin, hcsP]
    · refine ⟨fun q hq => ?_, hgeC, hliC.hch, hliC.hin, ?_⟩
      · rw [hC2] at hq
        simp at hq
      · show globalRanges Chunk.comments 0 st.chunks ++
          wipC2.map (fun q => (q.1 + (st.position + eat), q.2 + (st.position + eat))) ++
          remC = c.comments
        rw [hC2]
        have := hliC.hgl
        rw [hC2] at this
        simpa using this
    · refine ⟨fun q hq => ?_, hgeS, hliS.hch, hliS.hin, ?_⟩
      · rw [hS2] at hq
        simp at hq
      · show globalRanges Chunk.strings 0 st.chunks ++
          wipS2.map (fun q => (q.1 + (st.position + eat), q.2 + (st.position + eat))) ++
          remS = c.strings
        rw [hS2]
        have := hliS.hgl
        rw [hS2] at this
        simpa using this
    · refine ⟨fun q hq => ?_, hgeE, hliE.hch, hliE.hin, ?_⟩
      · rw [hE2] at hq
        simp at hq
      · show globalRanges Chunk.errors 0 st.chunks ++
          wipE2.map (fun q => (q.1 + (st.position + eat), q.2 + (st.position + eat))) ++
          remE = c.errors
        rw [hE2]
        have := hliE.hgl
        rw [hE2] at this
        simpa using this
  · rw [if_neg hMe]
    have hMne : M ≠ [] := by
      intro h
      rw [h] at hMe
      exact hMe rfl
    have hjoinA : (st.chunks.map Chunk.text).flatten = A := by
      obtain ⟨rst, hrst⟩ := hinv.htext
      refine prefix_byteLen_eq ⟨rst, hrst⟩ ⟨M ++ B2, ?_⟩ ?_
      · rw [hTsplit, List.append_assoc]
      · rw [hinv.hjoin, hA]
    have hglobC : globalRanges Chunk.comments 0
        (st.chunks ++ [⟨M, wipC2, wipS2, wipE2⟩]) =
        globalRanges Chunk.comments 0 st.chunks ++
          wipC2.map (fun q => (q.1 + st.chunk_start, q.2 + st.chunk_start)) := by
      rw [globalRanges_append, hjoinA, hA]
      simp [globalRanges]
    have hglobS : globalRanges Chunk.strings 0
        (st.chunks ++ [⟨M, wipC2, wipS2, wipE2⟩]) =
        globalRanges Chunk.strings 0 st.chunks ++
          wipS2.map (fun q => (q.1 + st.chunk_start, q.2 + st.chunk_start)) := by
      rw [globalRanges_append, hjoinA, hA]
      simp [globalRanges]
    have hglobE : globalRanges Chunk.errors 0
        (st.chunks ++ [⟨M, wipC2, wipS2, wipE2⟩]) =
        globalRanges Chunk.errors 0 st.chunks ++
          wipE2.map (fun q => (q.1 + st.chunk_start, q.2 + st.chunk_start)) := by
      rw [globalRanges_append, hjoinA, hA]
      simp [globalRanges]
    refine ⟨_, rfl, ?_, rfl, rfl, rfl, rfl, rfl, hgeC, hgeS, hgeE⟩
    refine ⟨le_refl _, hlen, hb, hb, ?_, ?_, ?_, ?_, ?_, ?_, ?_⟩
    · refine ⟨B2, ?_⟩
      show c.text = ((st.chunks ++ [(⟨M, wipC2, wipS2, wipE2⟩ : Chunk)]).map
        Chunk.text).flatten ++ B2
      simp only [List.map_append, List.flatten_append, List.map_cons,
        List.map_nil, List.flatten_cons, List.flatten_nil, List.append_nil]
      rw [hjoinA, hTsplit, List.append_assoc]
    · show byteLen _ = st.position + eat
      simp only [List.map_append, List.flatten_append, List.map_cons,
        List.map_nil, List.flatten_cons, List.flatten_nil, List.append_nil]
      rw [byteLen_append, hjoinA, hA]
      omega
    · intro ch hch
      rcases List.mem_append.mp hch with h | h
      · exact hinv.hne ch h
      · simp only [List.mem_singleton] at h
        subst h
        exact hMne
    · intro ch hch
      rcases List.mem_append.mp hch with h | h
      · exact hinv.hloc ch h
      · simp only [List.mem_singleton] at h
        subst h
        refine ⟨fun r hr => ?_, fun r hr => ?_, fun r hr => ?_⟩
        · have := hliC.hwip r hr
          show r.1 < r.2 ∧ r.2 ≤ byteLen M
          omega
        · have := hliS.hwip r hr
          show r.1 < r.2 ∧ r.2 ≤ byteLen M
          omega
        · have := hliE.hwip r hr
          show r.1 < r.2 ∧ r.2 ≤ byteLen M
          omega
    · refine ⟨fun q hq => by simp at hq, hgeC, hliC.hch, hliC.hin, ?_⟩
      show globalRanges Chunk.comments 0
          (st.chunks ++ [(⟨M, wipC2, wipS2, wipE2⟩ : Chunk)]) ++
          List.map _ [] ++ remC = c.comments
      rw [hglobC, List.map_nil, List.append_nil]
      exact hliC.hgl
    · refine ⟨fun q hq => by simp at hq, hgeS, hliS.hch, hliS.hin, ?_⟩
      show globalRanges Chunk.strings 0
          (st.chunks ++ [(⟨M, wipC2, wipS2, wipE2⟩ : Chunk)]) ++
          List.map _ [] ++ remS = c.strings
      rw [hglobS, List.map_nil, List.append_nil]
      exact hliS.hgl
    · refine ⟨fun q hq => by simp at hq, hgeE, hliE.hch, hliE.hin, ?_⟩
      show globalRanges Chunk.errors 0
          (st.chunks ++ [(⟨M, wipC2, wipS2, wipE2⟩ : Chunk)]) ++
          List.map _ [] ++ remE = c.errors
      rw [hglobE, List.map_nil, List.append_nil]
      exact hliE.hgl

/-- The anchor-scanning loop over one `Unknown` region `[u1, u2)`: it
terminates with the position at `u2`, preserving the invariant.  Each
anchor (a `.`) pushes a chunk ending one byte past it. -/
theorem regionGo_ok {c : Chunk} (hwf : ChunkWF c) {u1 u2 : Nat}
    (hstru : ∀ r, KnownIn c r → r.2 ≤ u1 ∨ u2 ≤ r.1)
    (hu2len : u2 ≤ byteLen c.text) (hbu2 : IsCharBoundary c.text u2) :
    ∀ (fuel : Nat) (st : CkSt), u1 ≤ st.position → st.position ≤ u2 →
    u2 - st.position < fuel → CkInv c st →
    ∃ st2, regionGo c.text u2 fuel st = .ok st2 ∧ CkInv c st2 ∧
      st2.position = u2 := by
  intro fuel
  induction fuel with
  | zero =>
    intro st _ _ hfuel _
    omega
  | succ fuel ih =>
    intro st hu1 hu2 hfuel hinv
    obtain ⟨A, M, B2, hTsplit, hA, hM, hslice⟩ :=
      sliceBytes_spec hu2 hinv.hb_pos hbu2
    cases hf : findStart chunk_start_chars M with
    | none =>
      refine ⟨{ st with position := u2 }, ?_, hinv.stepPos hu2 hu2len hbu2, rfl⟩
      simp only [regionGo, hslice, hf]
    | some pr =>
      obtain ⟨off, suf⟩ := pr
      obtain ⟨s1, hMsplit, hs1, c0, rest0, hsuf, hc0⟩ := findStart_spec hf
      subst hsuf
      have hc0dot : c0 = '.' := by simpa [chunk_start_chars] using hc0
      subst hc0dot
      subst hs1
      have hdot1 : utf8Len '.' = 1 := rfl
      have hMlen : byteLen M = byteLen s1 + (1 + byteLen rest0) := by
        rw [hMsplit, byteLen_append, byteLen_cons, hdot1]
      have hplen : st.position + byteLen s1 + 1 ≤ u2 := by omega
      have hba : IsCharBoundary c.text (st.position + byteLen s1) :=
        ⟨A ++ s1, '.' :: rest0 ++ B2,
         by rw [hTsplit, hMsplit]; simp [List.append_assoc],
         by rw [byteLen_append, hA]⟩
      have hbp2 : IsCharBoundary c.text (st.position + byteLen s1 + 1) :=
        ⟨A ++ s1 ++ ['.'], rest0 ++ B2,
         by rw [hTsplit, hMsplit]; simp [List.append_assoc],
         by simp [byteLen_append, hA, byteLen_cons, byteLen_nil, hdot1]; omega⟩
      have hinv2 : CkInv c { st with position := st.position + byteLen s1 } :=
        hinv.stepPos (Nat.le_add_right _ _) (by omega) hba
      have htc : try_chunk_at ('.' :: rest0) = .ok (some 1) := rfl
      obtain ⟨st3, hpush, hinv3, hpos3, hcs3, _, _, _, _, _, _⟩ :=
        push_chunk_ok hwf hinv2
          (show ({ st with position := st.position + byteLen s1 } : CkSt).position
              + 1 = st.position + byteLen s1 + 1 by rfl) hbp2 (by omega)
          (fun r hr => by
            rcases hstru r hr with h | h
            · exact Or.inl (by omega)
            · exact Or.inr (by omega))
      have hck : ck_step c.text { st with position := st.position + byteLen s1 }
          (some 1) = .ok st3 := by
        simp only [ck_step]
        rw [if_pos (show st.chunk_start ≤ st.position + byteLen s1 by
          have := hinv.hcs_pos
          omega)]
        exact hpush
      obtain ⟨st4, hrec, hinv4, hpos4⟩ := ih st3 (by omega) (by omega)
        (by omega) hinv3
      refine ⟨st4, ?_, hinv4, hpos4⟩
      simp only [regionGo, hslice, hf, htc, hck]
      exact hrec

/-- The region loop: only `Unknown` regions are scanned, in order, and the
invariant is preserved throughout. -/
theorem regionsGo_ok {c : Chunk} (hwf : ChunkWF c)
    {out : List ((Nat × Nat) × RangeKind)}
    (hstru : ∀ u : Nat × Nat, (u, RangeKind.unknown) ∈ out →
      ∀ r, KnownIn c r → r.2 ≤ u.1 ∨ u.2 ≤ r.1) :
    ∀ (rl : List ((Nat × Nat) × RangeKind)) (st : CkSt),
    (∀ x ∈ rl, x ∈ out) →
    (∀ x ∈ rl, x.1.1 < x.1.2 ∧ x.1.2 ≤ byteLen c.text ∧
      IsCharBoundary c.text x.1.1 ∧ IsCharBoundary c.text x.1.2) →
    rl.Pairwise (fun x y => x.1.2 ≤ y.1.1) →
    (∀ x ∈ rl, st.position ≤ x.1.1) →
    CkInv c st →
    ∃ st2, regionsGo c.text rl st = .ok st2 ∧ CkInv c st2 := by
  intro rl
  induction rl with
  | nil =>
    intro st _ _ _ _ hinv
    exact ⟨st, rfl, hinv⟩
  | cons x rest ih =>
    intro st hmem hfacts hpw hpos hinv
    obtain ⟨r, kind⟩ := x
    obtain ⟨hr12, hr2len, hbr1, hbr2⟩ : r.1 < r.2 ∧ r.2 ≤ byteLen c.text ∧
        IsCharBoundary c.text r.1 ∧ IsCharBoundary c.text r.2 :=
      hfacts _ (List.mem_cons_self _ _)
    obtain ⟨hpwh, hpwt⟩ := List.pairwise_cons.mp hpw
    have hposr : st.position ≤ r.1 := hpos _ (List.mem_cons_self _ _)
    have htl : ∀ (st3 : CkSt), (∀ x ∈ rest, st3.position ≤ x.1.1) → CkInv c st3 →
        ∃ st2, regionsGo c.text rest st3 = .ok st2 ∧ CkInv c st2 :=
      fun st3 hp3 hi3 => ih st3 (fun x hx => hmem _ (List.mem_cons_of_mem _ hx))
        (fun x hx => hfacts _ (List.mem_cons_of_mem _ hx)) hpwt hp3 hi3
    cases kind with
    | unknown =>
      have hinv1 : CkInv c { st with position := r.1 } :=
        hinv.stepPos hposr (by omega) hbr1
      obtain ⟨st2, hrg, hinv2, hpos2⟩ := regionGo_ok hwf
        (hstru r (hmem _ (List.mem_cons_self _ _))) hr2len hbr2
        (byteLen c.text + 1) { st with position := r.1 } (le_refl _)
        (show r.1 ≤ r.2 by omega) (by show r.2 - r.1 < _; omega) hinv1
      obtain ⟨st4, hrest, hinv4⟩ := htl st2
        (fun x hx => by rw [hpos2]; exact hpwh x hx) hinv2
      refine ⟨st4, ?_, hinv4⟩
      simp only [regionsGo, hrg]
      exact hrest
    | comment =>
      obtain ⟨st4, hrest, hinv4⟩ := htl st
        (fun x hx => hpos _ (List.mem_cons_of_mem _ hx)) hinv
      exact ⟨st4, by simp only [regionsGo]; exact hrest, hinv4⟩
    | string =>
      obtain ⟨st4, hrest, hinv4⟩ := htl st
        (fun x hx => hpos _ (List.mem_cons_of_mem _ hx)) hinv
      exact ⟨st4, by simp only [regionsGo]; exact hrest, hinv4⟩
    | error =>
      obtain ⟨st4, hrest, hinv4⟩ := htl st
        (fun x hx => hpos _ (List.mem_cons_of_mem _ hx)) hinv
      exact ⟨st4, by simp only [regionsGo]; exact hrest, hinv4⟩

/-- The chunker on a well-formed segmented doc: it succeeds, its chunks
concatenate back to the text, no chunk is empty, and the three range lists
are exactly the chunks' local ranges shifted to global offsets (each local
range lying inside its chunk). -/
theorem chunks_ok {c : Chunk} (hwf : ChunkWF c) :
    ∃ out, chunks c = .ok out ∧
      (out.map Chunk.text).flatten = c.text ∧
      (∀ ch ∈ out, ch.text ≠ []) ∧
      globalRanges Chunk.comments 0 out = c.comments ∧
      globalRanges Chunk.strings 0 out = c.strings ∧
      globalRanges Chunk.errors 0 out = c.errors ∧
      (∀ ch ∈ out,
        (∀ r ∈ ch.comments, r.1 < r.2 ∧ r.2 ≤ byteLen ch.text) ∧
        (∀ r ∈ ch.strings, r.1 < r.2 ∧ r.2 ≤ byteLen ch.text) ∧
        (∀ r ∈ ch.errors, r.1 < r.2 ∧ r.2 ≤ byteLen ch.text)) := by
  obtain ⟨rngs, hrngs, hmemC, hmemS, hmemE, hrfacts, hrpw⟩ := ranges_spec hwf
  have hstru : ∀ u : Nat × Nat, (u, RangeKind.unknown) ∈ rngs →
      ∀ r, KnownIn c r → r.2 ≤ u.1 ∨ u.2 ≤ r.1 :=
    fun u hu r hr => unknown_disjoint hmemC hmemS hmemE hrpw hu hr
  have hb0 : IsCharBoundary c.text 0 := ⟨[], c.text, rfl, rfl⟩
  have hinv0 : CkInv c { comments_rem := c.comments, strings_rem := c.strings, errors_rem := c.errors } := by
    refine ⟨le_refl _, Nat.zero_le _, hb0, hb0, ⟨c.text, rfl⟩, rfl,
      fun ch hch => by simp at hch, fun ch hch => by simp at hch, ?_, ?_, ?_⟩
    · exact ⟨fun q hq => by simp at hq, fun r _ => Nat.zero_le _, hwf.1.2,
        fun r hr => hr, by simp [globalRanges]⟩
    · exact ⟨fun q hq => by simp at hq, fun r _ => Nat.zero_le _, hwf.2.1.2,
        fun r hr => hr, by simp [globalRanges]⟩
    · exact ⟨fun q hq => by simp at hq, fun r _ => Nat.zero_le _, hwf.2.2.1.2,
        fun r hr => hr, by simp [globalRanges]⟩
  obtain ⟨st1, hregions, hinv1⟩ := regionsGo_ok hwf hstru rngs
    { comments_rem := c.comments, strings_rem := c.strings, errors_rem := c.errors }
    (fun x hx => hx) hrfacts hrpw (fun x _ => Nat.zero_le _) hinv0
  have hbT : IsCharBoundary c.text (byteLen c.text) := ⟨c.text, [], by simp, rfl⟩
  obtain ⟨st2, hpush, hinv2, hpos2, hcs2, hwC, hwS, hwE, hgeC, hgeS, hgeE⟩ :=
    push_chunk_ok hwf hinv1
      (show st1.position + (byteLen c.text - st1.position) = byteLen c.text by
        have := hinv1.hpos_len
        omega)
      hbT (le_refl _) (fun r hr => Or.inl (ChunkWF.known hwf hr).2.1)
  have hremC : st2.comments_rem = [] :=
    List.eq_nil_iff_forall_not_mem.mpr (fun r hr => by
      have h1 := hgeC r hr
      obtain ⟨h21, h22, _, _⟩ := ChunkWF.known hwf (Or.inl (hinv2.hC.hin r hr))
      omega)
  have hremS : st2.strings_rem = [] :=
    List.eq_nil_iff_forall_not_mem.mpr (fun r hr => by
      have h1 := hgeS r hr
      obtain ⟨h21, h22, _, _⟩ :=
        ChunkWF.known hwf (Or.inr (Or.inl (hinv2.hS.hin r hr)))
      omega)
  have hremE : st2.errors_rem = [] :=
    List.eq_nil_iff_forall_not_mem.mpr (fun r hr => by
      have h1 := hgeE r hr
      obtain ⟨h21, h22, _, _⟩ :=
        ChunkWF.known hwf (Or.inr (Or.inr (hinv2.hE.hin r hr)))
      omega)
  have hglC : globalRanges Chunk.comments 0 st2.chunks = c.comments := by
    have h := hinv2.hC.hgl
    rw [hwC, hremC] at h
    simpa using h
  have hglS : globalRanges Chunk.strings 0 st2.chunks = c.strings := by
    have h := hinv2.hS.hgl
    rw [hwS, hremS] at h
    simpa using h
  have hglE : globalRanges Chunk.errors 0 st2.chunks = c.errors := by
    have h := hinv2.hE.hgl
    rw [hwE, hremE] at h
    simpa using h
  have htext : (st2.chunks.map Chunk.text).flatten = c.text := by
    obtain ⟨rst, hrst⟩ := hinv2.htext
    have hj : byteLen (st2.chunks.map Chunk.text).flatten = byteLen c.text := by
      rw [hinv2.hjoin, hcs2]
    have hsum : byteLen c.text =
        byteLen (st2.chunks.map Chunk.text).flatten + byteLen rst := by
      rw [hrst, byteLen_append]
    have hrst0 : rst = [] := byteLen_eq_zero (by omega)
    rw [hrst, hrst0, List.append_nil]
  refine ⟨st2.chunks, ?_, htext, hinv2.hne, hglC, hglS, hglE, hinv2.hloc⟩
  simp only [chunks, hrngs, hregions, if_pos hinv1.hpos_len, hpush]
  rw [if_pos ⟨hpos2.trans hcs2.symm, by rw [hwC]; rfl, by rw [hwS]; rfl,
    by rw [hwE]; rfl⟩]

/-! ## Claim theorems -/

/-- C8: for every source text the segmenter is total — `source_map`
returns `.ok` (never a panic, and its fuel always suffices) — and the
comment, string and error ranges it emits are each nonempty, end at or
before the end of the text, have both endpoints on character boundaries,
are sorted ascending by start with no overlap inside each list
(`RangesOK`), and are pairwise disjoint across the three lists
(`RangesDisj`). -/
theorem c8_segmenter (cs : List Char) :
    ∃ c : Chunk, source_map cs = .ok c ∧ c.text = cs ∧
      RangesOK cs (byteLen cs) c.comments ∧
      RangesOK cs (byteLen cs) c.strings ∧
      RangesOK cs (byteLen cs) c.errors ∧
      RangesDisj c.comments c.strings ∧
      RangesDisj c.comments c.errors ∧
      RangesDisj c.strings c.errors := by
  have h0 : WipOK cs 0 {} := by
    refine ⟨⟨?_, ?_⟩, ⟨?_, ?_⟩, ⟨?_, ?_⟩, ?_, ?_, ?_⟩ <;>
      simp [SegWip.comments, SegWip.strings, SegWip.errors, RangesDisj]
  obtain ⟨w, hw, hok⟩ := segGo_ok (byteLen cs + 1) [] cs 0 {} cs (by omega)
    (List.nil_append cs).symm rfl h0
  refine ⟨⟨cs, w.comments, w.strings, w.errors⟩, ?_, rfl,
    hok.1, hok.2.1, hok.2.2.1, hok.2.2.2.1, hok.2.2.2.2.1, hok.2.2.2.2.2⟩
  unfold source_map
  rw [hw]

/-- C9: for every segmented doc — a chunk whose comment, string and error
ranges satisfy the segmenter's output invariant — the chunker succeeds;
concatenating the texts of its output chunks reproduces the input text
byte-for-byte; no emitted chunk is empty; and each of the three segmented
range lists is exactly the concatenation, chunk by chunk in order, of that
chunk's local ranges translated to the chunk's global offset, every local
range lying entirely within its own chunk — so every segmented range lands,
translated to local offsets, in exactly one chunk. -/
theorem c9_chunker (c : Chunk)
    (hc : RangesOK c.text (byteLen c.text) c.comments)
    (hs : RangesOK c.text (byteLen c.text) c.strings)
    (he : RangesOK c.text (byteLen c.text) c.errors)
    (hcs : RangesDisj c.comments c.strings)
    (hce : RangesDisj c.comments c.errors)
    (hse : RangesDisj c.strings c.errors) :
    ∃ out, chunks c = .ok out ∧
      (out.map Chunk.text).flatten = c.text ∧
      (∀ ch ∈ out, ch.text ≠ []) ∧
      globalRanges Chunk.comments 0 out = c.comments ∧
      globalRanges Chunk.strings 0 out = c.strings ∧
      globalRanges Chunk.errors 0 out = c.errors ∧
      (∀ ch ∈ out,
        (∀ r ∈ ch.comments, r.1 < r.2 ∧ r.2 ≤ byteLen ch.text) ∧
        (∀ r ∈ ch.strings, r.1 < r.2 ∧ r.2 ≤ byteLen ch.text) ∧
        (∀ r ∈ ch.errors, r.1 < r.2 ∧ r.2 ≤ byteLen ch.text)) :=
  chunks_ok ⟨hc, hs, he, hcs, hce, hse⟩

/-- C9 witness: the chunker claim applied to the segmented doc
`"ab.bdd%"` with one comment range `[6, 7)` (the doc the crate's own
chunker test exercises). -/
theorem c9_witness :
    ∃ out, chunks ⟨"ab.bdd%".data, [(6, 7)], [], []⟩ = .ok out ∧
      (out.map Chunk.text).flatten = "ab.bdd%".data ∧
      (∀ ch ∈ out, ch.text ≠ []) ∧
      globalRanges Chunk.comments 0 out = [(6, 7)] ∧
      globalRanges Chunk.strings 0 out = [] ∧
      globalRanges Chunk.errors 0 out = [] ∧
      (∀ ch ∈ out,
        (∀ r ∈ ch.comments, r.1 < r.2 ∧ r.2 ≤ byteLen ch.text) ∧
        (∀ r ∈ ch.strings, r.1 < r.2 ∧ r.2 ≤ byteLen ch.text) ∧
        (∀ r ∈ ch.errors, r.1 < r.2 ∧ r.2 ≤ byteLen ch.text)) :=
  c9_chunker ⟨"ab.bdd%".data, [(6, 7)], [], []⟩
    (by
      refine ⟨?_, List.pairwise_singleton _ _⟩
      intro r hr
      simp only [List.mem_singleton] at hr
      subst hr
      exact ⟨by decide, by decide, ⟨"ab.bdd".data, "%".data, rfl, rfl⟩,
        ⟨"ab.bdd%".data, [], by decide, rfl⟩⟩)
    ⟨fun r hr => by simp at hr, List.Pairwise.nil⟩
    ⟨fun r hr => by simp at hr, List.Pairwise.nil⟩
    (fun r hr r2 hr2 => by simp at hr2)
    (fun r hr r2 hr2 => by simp at hr2)
    (fun r hr r2 hr2 => by simp at hr)

/-- C1 counterexample: on the input `"(})"` the default pipeline renders
`( )`, not `( \x7b \x7d )`, and records no inserted close at all — the `\x7d` has no
opener on the stack, so it is a removed close, not a mismatched one (this
is what the source's own `test_bracer` asserts at `bracer.rs:563-566`). -/
theorem c1_counterexample :
    dbglex "(\x7d)" = .ok "( )" ∧
    (pipeline_bracer "(\x7d)").map (fun p => p.2.inserted_closes) = .ok [] ∧
    Res.ok "( )" ≠ Res.ok "( \x7b \x7d )" := by
  refine ⟨rfl, rfl, ?_⟩
  decide

/-- C1 amended: for the input `"(})"` the default pipeline renders `( )`
with no inserted close and exactly one removed close, for the `\x7d` at token
index 1; the input that renders `( \x7b \x7d )` with one inserted close for the
`\x7b` opener is `"({)"`. -/
theorem c1_amended_render :
    dbglex "(\x7d)" = .ok "( )" ∧
    (pipeline_bracer "(\x7d)").map (fun p => p.2.inserted_closes) = .ok [] ∧
    (pipeline_bracer "(\x7d)").map (fun p => p.2.removed_closes) =
      .ok [(1, Sigil.braceClose)] ∧
    dbglex "(\x7b)" = .ok "( \x7b \x7d )" ∧
    (pipeline_bracer "(\x7b)").map (fun p => p.2.inserted_closes) =
      .ok [(2, Sigil.braceClose)] :=
  ⟨rfl, rfl, rfl, rfl, rfl⟩

/-- C2: tokenizing a chunk that needs an `Error` token panics instead of
recovering.  The segmented, chunked input `"@"` reaches
`Tokenizer::eat_error_from`, whose entry
`assert_eq!(self.peek_token(), Some(NextToken::Whitespace))` is false at
both call sites (here the peeked `@` classifies as `Error`); were the
assertion passed, `range.start.checked_sub(1)` would underflow at position
0 and the recovery table's first arms are `unreachable!()` for a whitespace
start.  So the tokenizer is not total, contradicting the claim (and the
crate's own panic-regression tests, whose inputs all contain such
characters). -/
theorem c2_error_token_panics :
    (source_map "@".data).bind chunks = .ok [⟨"@".data, [], [], []⟩] ∧
    lex_chunk bct_sigils ⟨"@".data, [], [], []⟩ = .panicked ∧
    lex_chunk bct_sigils ⟨":a".data, [], [], []⟩ = .panicked :=
  ⟨rfl, rfl, rfl⟩

/-- C4: consuming the full bracer tree is *not* panic-free.  On the input
`")(})"` the top level holds a removed close at token 0 followed by a
branch `(1, 4)` that itself contains a removed close at token 2.  The
iterator yields token 0 while the branch is pending, leaving the parent's
removed-close cursor on the stale entry; the nested iterator's
removed-close slice is built from that stale cursor plus the branch's
count, so inside the branch the next removed close compares `Greater`
against the token cursor and hits `bug!()`.  The skip loop added after the
branch jump runs only in the parent and does not repair the already-built
nested slice. -/
theorem c4_iterator_panics : dbglex ")(\x7d)" = .panicked := rfl

/-- C5: the (spec-modelled) bcts sigil alphabet is bit-exact to the
twelve-entry table; `:-` lexes as one sigil (no other sigil starts with
`:`, and a lone `:` is not a sigil); `[` and `<` lex as open bracket
sigils; and the bracer in `bcts/src/bracer.rs` builds branches for all four
bracket pairs. -/
theorem c5_sigil_table :
    bcts_sigils.map Sigil.as_str =
      [".", ",", ";", ":-", "(", ")", "\x7b", "\x7d", "[", "]", "<", ">"] ∧
    (lex_chunk bcts_sigils ⟨"a:-b".data, [], [], []⟩).map (·.map Token.kind) =
      .ok [.word, .sigil .colonDash, .word] ∧
    (lex_chunk bcts_sigils ⟨"[<".data, [], [], []⟩).map (·.map Token.kind) =
      .ok [.sigil .bracketOpen, .sigil .angleOpen] ∧
    (pipeline_bracer "()").map (fun p => p.2.branches.map (fun b => (b.open_sigil, b.close_sigil))) =
      .ok [(.parenOpen, .parenClose)] ∧
    (pipeline_bracer "\x7b\x7d").map (fun p => p.2.branches.map (fun b => (b.open_sigil, b.close_sigil))) =
      .ok [(.braceOpen, .braceClose)] ∧
    (pipeline_bracer "[]").map (fun p => p.2.branches.map (fun b => (b.open_sigil, b.close_sigil))) =
      .ok [(.bracketOpen, .bracketClose)] ∧
    (pipeline_bracer "<>").map (fun p => p.2.branches.map (fun b => (b.open_sigil, b.close_sigil))) =
      .ok [(.angleOpen, .angleClose)] :=
  ⟨rfl, rfl, rfl, rfl, rfl, rfl, rfl⟩

/-- C6: the bookkeeping parts of the claim hold — a stray close is recorded
in `removed_closes` with a one-token error and no branch, and `")"` renders
empty with one removed close at index 0 — but the stray token is *not*
always deleted from the tree: on `")("` a branch follows the stray close at
the same level, so the iterator's branch-pending arm yields the stray `)`
as a real token and the tree renders `) ( )`. -/
theorem c6_removed_close_eval :
    dbglex ")" = .ok "" ∧
    (pipeline_bracer ")").map (fun p => p.2.removed_closes) =
      .ok [(0, Sigil.parenClose)] ∧
    (pipeline_bracer ")").map (fun p => p.2.branches) = .ok [] ∧
    (pipeline_bracer ")(").map (fun p => p.2.removed_closes) =
      .ok [(0, Sigil.parenClose)] ∧
    (pipeline_bracer ")(").map (fun p => p.2.errors) =
      .ok [((0, 1), Sigil.parenClose), ((1, 2), Sigil.parenOpen)] ∧
    (pipeline_bracer ")(").map (fun p => p.2.branches.map (·.real_token_range)) =
      .ok [(1, 2)] ∧
    dbglex ")(" = .ok ") ( )" :=
  ⟨rfl, rfl, rfl, rfl, rfl, rfl, rfl⟩

/-- The unwind loop never creates inserted-close entries: the result's
`inserted_closes` is the top map's followed by the frames' own, outermost
frame first. -/
theorem unwind_inserted : ∀ (fuel : Nat) (stack : List Frame) (top : BraceMap)
    {N : Nat} {m : BraceMap}, unwind N fuel stack top = some m →
    m.inserted_closes = top.inserted_closes ++
      (stack.reverse.map (fun f => f.2.2.inserted_closes)).flatten := by
  intro fuel
  induction fuel with
  | zero =>
    intro stack top N m h
    cases stack with
    | nil => cases h; simp
    | cons fr rest => simp [unwind] at h
  | succ fuel ih =>
    intro stack top N m h
    cases stack with
    | nil => cases h; simp
    | cons fr rest =>
      obtain ⟨oi, os, bm⟩ := fr
      cases rest with
      | nil =>
        simp only [unwind, pushToParent] at h
        cases h
        simp [BraceMap.append]
      | cons fr2 rr =>
        obtain ⟨pi, ps, pm⟩ := fr2
        simp only [unwind, pushToParent] at h
        have := ih _ _ h
        simp only [BraceMap.append] at this
        simp [this]

/-- Entries already present in the top map or in a frame map survive the
unwind (branches vector). -/
theorem unwind_mem_branches : ∀ (fuel : Nat) (stack : List Frame) (top : BraceMap)
    {N : Nat} {m : BraceMap} {b : Branch}, unwind N fuel stack top = some m →
    (b ∈ top.branches ∨ ∃ f ∈ stack, b ∈ f.2.2.branches) → b ∈ m.branches := by
  intro fuel
  induction fuel with
  | zero =>
    intro stack top N m b h hmem
    cases stack with
    | nil =>
      cases h
      rcases hmem with h | ⟨f, hf, _⟩
      · exact h
      · simp at hf
    | cons fr rest => simp [unwind] at h
  | succ fuel ih =>
    intro stack top N m b h hmem
    cases stack with
    | nil =>
      cases h
      rcases hmem with h | ⟨f, hf, _⟩
      · exact h
      · simp at hf
    | cons fr rest =>
      obtain ⟨oi, os, bm⟩ := fr
      cases rest with
      | nil =>
        simp only [unwind, pushToParent] at h
        cases h
        simp only [BraceMap.append, List.mem_append]
        rcases hmem with hb | ⟨f, hf, hbf⟩
        · simp [hb]
        · simp only [List.mem_singleton] at hf
          subst hf
          simp [hbf]
      | cons fr2 rr =>
        obtain ⟨pi, ps, pm⟩ := fr2
        simp only [unwind, pushToParent] at h
        rcases hmem with hb | ⟨f, hf, hbf⟩
        · exact ih _ _ h (Or.inl hb)
        · simp only [List.mem_cons] at hf
          rcases hf with hf | hf | hf
          · subst hf
            refine ih _ _ h (Or.inr ⟨_, List.mem_cons_self _ _, ?_⟩)
            simp [BraceMap.append, hbf]
          · subst hf
            refine ih _ _ h (Or.inr ⟨_, List.mem_cons_self _ _, ?_⟩)
            simp [BraceMap.append, hbf]
          · exact ih _ _ h (Or.inr ⟨f, by simp [hf], hbf⟩)

/-- Entries already present in the top map or in a frame map survive the
unwind (errors vector). -/
theorem unwind_mem_errors : ∀ (fuel : Nat) (stack : List Frame) (top : BraceMap)
    {N : Nat} {m : BraceMap} {e : (Nat × Nat) × Sigil},
    unwind N fuel stack top = some m →
    (e ∈ top.errors ∨ ∃ f ∈ stack, e ∈ f.2.2.errors) → e ∈ m.errors := by
  intro fuel
  induction fuel with
  | zero =>
    intro stack top N m e h hmem
    cases stack with
    | nil =>
      cases h
      rcases hmem with h | ⟨f, hf, _⟩
      · exact h
      · simp at hf
    | cons fr rest => simp [unwind] at h
  | succ fuel ih =>
    intro stack top N m e h hmem
    cases stack with
    | nil =>
      cases h
      rcases hmem with h | ⟨f, hf, _⟩
      · exact h
      · simp at hf
    | cons fr rest =>
      obtain ⟨oi, os, bm⟩ := fr
      cases rest with
      | nil =>
        simp only [unwind, pushToParent] at h
        cases h
        simp only [BraceMap.append, List.mem_append]
        rcases hmem with hb | ⟨f, hf, hbf⟩
        · simp [hb]
        · simp only [List.mem_singleton] at hf
          subst hf
          simp [hbf]
      | cons fr2 rr =>
        obtain ⟨pi, ps, pm⟩ := fr2
        simp only [unwind, pushToParent] at h
        rcases hmem with hb | ⟨f, hf, hbf⟩
        · exact ih _ _ h (Or.inl hb)
        · simp only [List.mem_cons] at hf
          rcases hf with hf | hf | hf
          · subst hf
            refine ih _ _ h (Or.inr ⟨_, List.mem_cons_self _ _, ?_⟩)
            simp [BraceMap.append, hbf]
          · subst hf
            refine ih _ _ h (Or.inr ⟨_, List.mem_cons_self _ _, ?_⟩)
            simp [BraceMap.append, hbf]
          · exact ih _ _ h (Or.inr ⟨f, by simp [hf], hbf⟩)

/-- Every frame surviving to the unwind yields a branch over
`[open_index, num_tokens)` with the opener's sigil pair, and an error over
the same range tagged with the opener's sigil. -/
theorem unwind_frames : ∀ (fuel : Nat) (stack : List Frame) (top : BraceMap)
    {N : Nat} {m : BraceMap}, unwind N fuel stack top = some m →
    ∀ oi os, (oi, os) ∈ stack.map (fun f => (f.1, f.2.1)) →
      (∃ b ∈ m.branches, b.real_token_range = (oi, N) ∧ b.open_sigil = os ∧
        b.close_sigil = os.close_sigil) ∧ ((oi, N), os) ∈ m.errors := by
  intro fuel
  induction fuel with
  | zero =>
    intro stack top N m h oi os hmem
    cases stack with
    | nil => simp at hmem
    | cons fr rest => simp [unwind] at h
  | succ fuel ih =>
    intro stack top N m h oi os hmem
    cases stack with
    | nil => simp at hmem
    | cons fr rest =>
      obtain ⟨oi0, os0, bm⟩ := fr
      simp only [List.map_cons, List.mem_cons] at hmem
      rcases hmem with hhead | htail
      · obtain ⟨rfl, rfl⟩ : oi = oi0 ∧ os = os0 := by
          simpa [Prod.ext_iff] using hhead
        cases rest with
        | nil =>
          simp only [unwind, pushToParent] at h
          cases h
          constructor
          · refine ⟨Branch.ofMap (oi, N) bm os os.close_sigil,
              ?_, by simp [Branch.ofMap], by simp [Branch.ofMap],
              by simp [Branch.ofMap]⟩
            simp [BraceMap.append]
          · simp [BraceMap.append]
        | cons fr2 rr =>
          obtain ⟨pi, ps, pm⟩ := fr2
          simp only [unwind, pushToParent] at h
          constructor
          · refine ⟨Branch.ofMap (oi, N) bm os os.close_sigil,
              ?_, by simp [Branch.ofMap], by simp [Branch.ofMap],
              by simp [Branch.ofMap]⟩
            refine unwind_mem_branches _ _ _ h
              (Or.inr ⟨_, List.mem_cons_self _ _, ?_⟩)
            simp [BraceMap.append]
          · refine unwind_mem_errors _ _ _ h
              (Or.inr ⟨_, List.mem_cons_self _ _, ?_⟩)
            simp [BraceMap.append]
      · cases rest with
        | nil => simp at htail
        | cons fr2 rr =>
          obtain ⟨pi, ps, pm⟩ := fr2
          simp only [unwind, pushToParent] at h
          refine ih _ _ h oi os ?_
          simpa using htail

/-- C3 counterexample: on the single token `(`, the end-of-input unwind
produces the branch and the spanning error but *no* `inserted_closes`
entry — the claim's "an entry in the inserted_closes vector for the
synthesised closer" is false (the synthesised closer exists only as the
branch's `close_sigil`). -/
theorem c3_counterexample :
    ∃ m, bracer [sigTok .parenOpen] = some m ∧
      m.branches.length = 1 ∧ m.inserted_closes.length = 0 ∧
      m.errors = [((0, 1), Sigil.parenOpen)] :=
  ⟨_, rfl, rfl, rfl, rfl⟩

/-- C3 amended: each opener still on the bracer's stack when the tokens
are exhausted produces a branch with `real_token_range = (open_index,
num_tokens)`, the opener's sigil pair, and an error over the same range
tagged with the opener's sigil; the unwind adds no `inserted_closes`
entry (the output's vector is exactly the concatenation of the top map's
and the frames' own entries). -/
theorem c3_amended_unwind (tokens : List Token) (st : BrSt) (m : BraceMap)
    (h1 : processFrom 0 (tokens.map Token.kind) ⟨[], {}⟩ = some st)
    (h2 : bracer tokens = some m) :
    m.inserted_closes = st.top.inserted_closes ++
      (st.stack.reverse.map (fun f => f.2.2.inserted_closes)).flatten ∧
    ∀ f ∈ st.stack,
      (∃ b ∈ m.branches, b.real_token_range = (f.1, tokens.length) ∧
        b.open_sigil = f.2.1 ∧ b.close_sigil = f.2.1.close_sigil) ∧
      ((f.1, tokens.length), f.2.1) ∈ m.errors := by
  unfold bracer at h2
  rw [h1, Option.some_bind] at h2
  refine ⟨unwind_inserted _ _ _ h2, ?_⟩
  intro f hf
  exact unwind_frames _ _ _ h2 f.1 f.2.1 (List.mem_map_of_mem _ hf)

/-- C3 witness at the single token `(` (one surviving opener). -/
theorem c3_witness :
    (⟨[⟨(0, 1), 0, 0, 0, 0, .parenOpen, .parenClose⟩], [], [],
        [((0, 1), .parenOpen)]⟩ : BraceMap).inserted_closes =
      (⟨[], {}⟩ : BrSt).top.inserted_closes ++
        ((⟨[(0, Sigil.parenOpen, {})], {}⟩ : BrSt).stack.reverse.map
          (fun f => f.2.2.inserted_closes)).flatten ∧
    ∀ f ∈ (⟨[(0, Sigil.parenOpen, {})], {}⟩ : BrSt).stack,
      (∃ b ∈ (⟨[⟨(0, 1), 0, 0, 0, 0, .parenOpen, .parenClose⟩], [], [],
          [((0, 1), .parenOpen)]⟩ : BraceMap).branches,
        b.real_token_range = (f.1, 1) ∧ b.open_sigil = f.2.1 ∧
        b.close_sigil = f.2.1.close_sigil) ∧
      ((f.1, 1), f.2.1) ∈ (⟨[⟨(0, 1), 0, 0, 0, 0, .parenOpen, .parenClose⟩],
        [], [], [((0, 1), .parenOpen)]⟩ : BraceMap).errors := by
  have := c3_amended_unwind [sigTok .parenOpen]
    ⟨[(0, Sigil.parenOpen, {})], {}⟩
    ⟨[⟨(0, 1), 0, 0, 0, 0, .parenOpen, .parenClose⟩], [], [],
      [((0, 1), .parenOpen)]⟩ rfl rfl
  exact ⟨this.1, this.2⟩

/-- C7: the bracer's four flat vectors are a pre-order flattening with
consistent subtree counts: the output is `flattenOps ops` for a forest
`ops` in which every branch entry is written before all of its
descendants' entries and every branch's four counts equal the lengths of
the vectors its sub-forest flattens to; consequently summing
`branches[i].branches + 1` over the top-level branches gives
`len(branches)`, and analogously for the other three vectors plus their
top-level entries. -/
theorem c7_preorder_counts (tokens : List Token) (m : BraceMap)
    (h : bracer tokens = some m) :
    ∃ ops, m = flattenOps ops ∧ countsOK ops ∧
      m.branches.length = topSumBranches ops ∧
      m.inserted_closes.length = topSumInserted ops ∧
      m.removed_closes.length = topSumRemoved ops ∧
      m.errors.length = topSumErrors ops := by
  obtain ⟨ops, hm, hc, _⟩ := bracer_abs h
  subst hm
  exact ⟨ops, rfl, hc, flatten_length_branches hc, flatten_length_inserted hc,
    flatten_length_removed hc, flatten_length_errors hc⟩

/-- C7 witness at the token list of `"()"`. -/
theorem c7_witness :
    ∃ ops,
      (⟨[⟨(0, 2), 0, 0, 0, 0, .parenOpen, .parenClose⟩], [], [], []⟩ : BraceMap) =
        flattenOps ops ∧ countsOK ops ∧
      (1 : Nat) = topSumBranches ops ∧ (0 : Nat) = topSumInserted ops ∧
      (0 : Nat) = topSumRemoved ops ∧ (0 : Nat) = topSumErrors ops := by
  have := c7_preorder_counts [sigTok .parenOpen, sigTok .parenClose]
    ⟨[⟨(0, 2), 0, 0, 0, 0, .parenOpen, .parenClose⟩], [], [], []⟩ rfl
  simpa using this

/-- C10: every entry `(i, s)` of `inserted_closes` belongs to a branch of
the output whose `real_token_range.2` equals `i` and whose `close_sigil`
is `s` — inserted closes sit exactly at the end position of their branch's
token range. -/
theorem c10_inserted_closes (tokens : List Token) (m : BraceMap)
    (h : bracer tokens = some m) :
    ∀ e ∈ m.inserted_closes, ∃ b ∈ m.branches,
      b.real_token_range.2 = e.1 ∧ b.close_sigil = e.2 := by
  obtain ⟨ops, hm, _, ht⟩ := bracer_abs h
  subst hm
  intro e he
  rcases tails_flatten ops none ht e he with hb | ⟨b0, hb0, _⟩
  · exact hb
  · cases hb0

/-- C10 witness at the token list of `"({)"` (one mismatched opener, one
inserted close at index 2). -/
theorem c10_witness :
    ∃ b ∈ [(⟨(0, 3), 1, 1, 0, 1, .parenOpen, .parenClose⟩ : Branch),
           ⟨(1, 2), 0, 1, 0, 1, .braceOpen, .braceClose⟩],
      b.real_token_range.2 = 2 ∧ b.close_sigil = Sigil.braceClose := by
  have := c10_inserted_closes
    [sigTok .parenOpen, sigTok .braceOpen, sigTok .parenClose]
    ⟨[⟨(0, 3), 1, 1, 0, 1, .parenOpen, .parenClose⟩,
      ⟨(1, 2), 0, 1, 0, 1, .braceOpen, .braceClose⟩],
     [(2, .braceClose)], [], [((1, 2), .braceOpen)]⟩ rfl
    (2, Sigil.braceClose) (by simp)
  simp only at this
  exact this

end Bcts
